import Mathlib

/-!
# vpc-mapper: address classification and recursive pixel placement

A shallow embedding of `main.go`.

* IPv4 addresses (`net.IP`) are natural numbers below `2 ^ 32` (the big-endian
  value of the four bytes); `ip.Equal` is equality of these numbers.
* A `Cidr` (`net.IPNet`) is the network address together with the number of
  leading one bits of the mask.  `net.ParseCIDR` always stores the masked
  address, which is what `Cidr.Valid` records.
* Go `int` is the 64-bit two's complement integer: every arithmetic result is
  reduced with `wrap64`.  Go `uint64` results are reduced modulo `2 ^ 64`.
* The three functions of `github.com/apparentlymart/go-cidr` that `main.go` calls
  (`cidr.Inc`, `cidr.AddressRange`, `cidr.AddressCount`) and `net.IPNet.Contains`
  are not part of `main.go`; they are embedded from the source of those libraries,
  restricted to IPv4 values.
* Loops whose termination depends on the data (`ForEachIP`) carry a fuel
  argument and report `Outcome.outOfFuel` when it runs out.
-/

namespace VpcMapper

/-! ## Machine integers -/

/-- Two's complement reduction of an integer to the range of a 64-bit Go `int`. -/
def wrap64 (x : Int) : Int := (x + 2 ^ 63) % 2 ^ 64 - 2 ^ 63

/-- Reduction of a natural number to the range of a Go `uint64`. -/
def wrapU64 (n : Nat) : Nat := n % 2 ^ 64

/-- Subtraction of two `uint64` values, wrapping around below zero. -/
def subU64 (a b : Nat) : Nat := (a + 2 ^ 64 - b % 2 ^ 64) % 2 ^ 64

/-! ## Address blocks and the library primitives used by `main.go` -/

/-- The type `Cidr` of `main.go` (a `net.IPNet`): network address and prefix length. -/
structure Cidr where
  /-- The field `IP` of the `net.IPNet`, as a 32-bit number. -/
  ip : Nat
  /-- The number of leading ones of the field `Mask`. -/
  prefixLen : Nat
deriving DecidableEq, Repr

/-- Number of host bits, `bits - prefixLen` with `bits = 32`. -/
def Cidr.hostBits (c : Cidr) : Nat := 32 - c.prefixLen

/-- The mask of the block as a 32-bit number: `prefixLen` ones, then zeros. -/
def Cidr.mask (c : Cidr) : Nat := 2 ^ 32 - 2 ^ c.hostBits

/-- What `net.ParseCIDR` guarantees of its result: the prefix length is at most 32 and
the stored address is a 32-bit number whose host bits are zero. -/
def Cidr.Valid (c : Cidr) : Prop :=
  c.prefixLen ≤ 32 ∧ c.ip < 2 ^ 32 ∧ c.ip % 2 ^ c.hostBits = 0

instance (c : Cidr) : Decidable c.Valid := by
  unfold Cidr.Valid; infer_instance

/-- The method `net.IPNet.Contains` of the Go standard library: the loop
`if nn[i]&m[i] != ip[i]&m[i] { return false }` over the four bytes, that is, the address
and the network address agree on every bit of the mask. -/
def Cidr.Contains (c : Cidr) (ip : Nat) : Bool :=
  (c.ip &&& c.mask) == (ip &&& c.mask)

/-- The function `cidr.Inc` of go-cidr: it copies the four bytes and runs
`incIP[j]++; if incIP[j] > 0 { break }` from the last byte to the first, so a byte that
overflows to 0 carries into the byte before it and `255.255.255.255` becomes `0.0.0.0`. -/
def Inc (ip : Nat) : Nat := (ip + 1) % 2 ^ 32

/-- The function `cidr.AddressRange` of go-cidr: the first address is `network.IP`; the
last one is a copy of it when `prefixLen == bits`, and otherwise
`((1 << hostLen) - 1) | firstIP`, the first address with all host bits set. -/
def AddressRange (network : Cidr) : Nat × Nat :=
  let firstIP := network.ip
  if network.prefixLen = 32 then (firstIP, firstIP)
  else (firstIP, (2 ^ network.hostBits - 1) ||| firstIP)

/-- The function `cidr.AddressCount` of go-cidr: `1 << (bits - prefixLen)` as a
`uint64`. -/
def AddressCount (network : Cidr) : Nat := wrapU64 (2 ^ network.hostBits)

/-! ## The data model -/

/-- The struct `Subnet`; the text fields `Vpc`, `Name` and `Az` play no part in any
computation and are left out. -/
structure Subnet where
  /-- The block of the subnet. -/
  Cidr : Cidr
  /-- The addresses recorded as in use. -/
  UsedIps : List Nat
deriving DecidableEq, Repr

/-- The struct `VPC`; the text fields `Vpc` and `Name` are left out. -/
structure VPC where
  /-- The block of the network. -/
  Cidr : Cidr
  /-- The subnets in declared order. -/
  Subnets : List Subnet
deriving DecidableEq, Repr

/-! ## Enumeration -/

/-- How a loop with a callback ended. -/
inductive Outcome (σ : Type) where
  /-- The loop condition became false; the final state is returned. -/
  | finished : σ → Outcome σ
  /-- The callback stopped the program with a run-time error. -/
  | aborted : Outcome σ
  /-- The loop was still running when the fuel was used up. -/
  | outOfFuel : Outcome σ
deriving DecidableEq, Repr

/-- The loop `for ip, i := start, 0; network.Contains(ip); ip, i = cidr.Inc(ip), i+1`
shared by `VPC.ForEachIP` and `Subnet.ForEachIP`.  The callback transforms a state and
returns `none` when it stops the program. -/
def forEachIPLoop {σ : Type} (network : Cidr) (callback : σ → Int → Nat → Option σ) :
    Nat → Nat → Int → σ → Outcome σ
  | 0, _, _, _ => Outcome.outOfFuel
  | fuel + 1, ip, i, st =>
    if network.Contains ip then
      match callback st i ip with
      | none => Outcome.aborted
      | some st1 => forEachIPLoop network callback fuel (Inc ip) (wrap64 (i + 1)) st1
    else Outcome.finished st

/-- The method `VPC.ForEachIP`. -/
def VPC.ForEachIP {σ : Type} (v : VPC) (fuel : Nat) (callback : σ → Int → Nat → Option σ)
    (st : σ) : Outcome σ :=
  let network := v.Cidr
  let start := (AddressRange network).1
  forEachIPLoop network callback fuel start 0 st

/-- The method `Subnet.ForEachIP`. -/
def Subnet.ForEachIP {σ : Type} (s : Subnet) (fuel : Nat)
    (callback : σ → Int → Nat → Option σ) (st : σ) : Outcome σ :=
  let network := s.Cidr
  let start := (AddressRange network).1
  forEachIPLoop network callback fuel start 0 st

/-- The callback that records its arguments, in the order of the calls. -/
def recordCall (calls : List (Int × Nat)) (i : Int) (ip : Nat) : Option (List (Int × Nat)) :=
  some (calls ++ [(i, ip)])

/-! ## Classification -/

/-- The method `Subnet.IPAllocated`. -/
def Subnet.IPAllocated (_s : Subnet) (_ip : Nat) : Bool := true

/-- The method `Subnet.IPReserved`. -/
def Subnet.IPReserved (s : Subnet) (ip : Nat) : Bool :=
  let networkAddr := s.Cidr.ip
  let gatewayAddr := Inc networkAddr
  let dnsAddr := Inc gatewayAddr
  let reserved := Inc dnsAddr
  let broadcastAddr := (AddressRange s.Cidr).2
  ip == networkAddr || ip == gatewayAddr || ip == dnsAddr || ip == reserved ||
    ip == broadcastAddr

/-- The loop of `Subnet.IPInUse` over the in-use addresses. -/
def usedLoop (ip : Nat) : List Nat → Bool
  | [] => false
  | used :: rest => if ip == used then true else usedLoop ip rest

/-- The method `Subnet.IPInUse`. -/
def Subnet.IPInUse (s : Subnet) (ip : Nat) : Bool := usedLoop ip s.UsedIps

/-- The loop common to the three methods of `VPC`: the answer of the first subnet whose
block contains the address, `false` when there is none. -/
def firstMatch (answer : Subnet → Nat → Bool) (ip : Nat) : List Subnet → Bool
  | [] => false
  | sub :: rest => if sub.Cidr.Contains ip then answer sub ip else firstMatch answer ip rest

/-- The method `VPC.IPAllocated`. -/
def VPC.IPAllocated (v : VPC) (ip : Nat) : Bool := firstMatch Subnet.IPAllocated ip v.Subnets

/-- The method `VPC.IPReserved`. -/
def VPC.IPReserved (v : VPC) (ip : Nat) : Bool := firstMatch Subnet.IPReserved ip v.Subnets

/-- The method `VPC.IPInUse`. -/
def VPC.IPInUse (v : VPC) (ip : Nat) : Bool := firstMatch Subnet.IPInUse ip v.Subnets

/-! ## Placement -/

/-- The function `mapPos`.  The result is `none` when the remainder `i % subBlockSize`
is taken with `subBlockSize = 0`, which stops a Go program. -/
def mapPos (i dim : Int) : Option (Int × Int) :=
  let subDim := Int.tdiv dim 2
  let subBlockSize := wrap64 (subDim * subDim)
  if h : dim ≤ 1 then some (0, 0)
  else if subBlockSize = 0 then none
  else
    match mapPos (Int.tmod i subBlockSize) subDim with
    | none => none
    | some (x, y) =>
      if i ≥ wrap64 (subBlockSize * 3) then some (wrap64 (x + subDim), wrap64 (y + subDim))
      else if i ≥ wrap64 (subBlockSize * 2) then some (x, wrap64 (y + subDim))
      else if i ≥ subBlockSize then some (wrap64 (x + subDim), y)
      else some (x, y)
termination_by dim.toNat
decreasing_by
  have h0 : (0 : Int) ≤ dim := le_trans (by decide) (le_of_lt (lt_of_not_le h))
  rw [Int.tdiv_eq_ediv h0 (by decide)]
  omega

/-! ## Rendering -/

/-- A `color.RGBA` value. -/
structure RGBA where
  /-- Red. -/
  r : Nat
  /-- Green. -/
  g : Nat
  /-- Blue. -/
  b : Nat
  /-- Alpha. -/
  a : Nat
deriving DecidableEq, Repr

/-- The colour `unallocated` of `generateImage`. -/
def unallocated : RGBA := ⟨0, 0, 0, 255⟩
/-- The colour `inUse` of `generateImage`. -/
def inUse : RGBA := ⟨0, 0, 255, 255⟩
/-- The colour `reserved` of `generateImage`. -/
def reserved : RGBA := ⟨255, 0, 0, 255⟩
/-- The colour `allocated` of `generateImage`. -/
def allocated : RGBA := ⟨255, 255, 255, 255⟩

/-- An `image.RGBA` whose rectangle is `[0, side) × [0, side)`. -/
structure Image where
  /-- The side of the rectangle. -/
  side : Int
  /-- The colour stored at each position. -/
  pix : Int → Int → RGBA

/-- The function `image.NewRGBA` on the rectangle `image.Rect(0, 0, side, side)`:
every pixel is the zero value of `color.RGBA`. -/
def NewRGBA (side : Int) : Image := ⟨side, fun _ _ => ⟨0, 0, 0, 0⟩⟩

/-- The method `(*image.RGBA).Set`: nothing happens outside the rectangle. -/
def Image.Set (img : Image) (x y : Int) (c : RGBA) : Image :=
  if 0 ≤ x ∧ x < img.side ∧ 0 ≤ y ∧ y < img.side then
    ⟨img.side, fun u v => if u = x ∧ v = y then c else img.pix u v⟩
  else img

/-- The callback that `generateImage` hands to `ForEachIP`. -/
def drawIP (info : VPC) (desiredSquare : Int) (output : Image) (i : Int) (ip : Nat) :
    Option Image :=
  match mapPos i desiredSquare with
  | none => none
  | some (x, y) =>
    let output := output.Set x y unallocated
    if info.IPInUse ip then some (output.Set x y inUse)
    else if info.IPReserved ip then some (output.Set x y reserved)
    else if info.IPAllocated ip then some (output.Set x y allocated)
    else some output

/-- The function `generateImage` up to the point where the image is encoded.  The side
`desiredSquare` of the canvas, which the program computes in floating point from the
address count of the block, is an argument. -/
def generateImage (fuel : Nat) (desiredSquare : Int) (info : VPC) : Outcome Image :=
  let output := NewRGBA desiredSquare
  info.ForEachIP fuel (drawIP info desiredSquare) output

/-- The colour that the branches of the callback of `generateImage` choose for an
address. -/
def colourOf (info : VPC) (ip : Nat) : RGBA :=
  if info.IPInUse ip then inUse
  else if info.IPReserved ip then reserved
  else if info.IPAllocated ip then allocated
  else unallocated

/-! ## The report -/

/-- The numbers printed at the end of the report of one network. -/
structure Report where
  /-- The line `Total IPs`. -/
  totalIPs : Nat
  /-- The line `Total Unallocated IPs`. -/
  totalUnallocated : Nat
  /-- The line `Total Allocated IPs`. -/
  totalAllocated : Nat
  /-- The line `Total Available IPs`. -/
  totalAvailable : Nat
  /-- The line `Total Reserved  IPs`. -/
  totalReserved : Nat
  /-- The line `Total Used      IPs`. -/
  totalUsed : Nat
deriving DecidableEq, Repr

/-- The loop of `main` over the subnets, on the accumulators
`(totalAllocated, totalReserved, totalUsed)`. -/
def subnetLoop : List Subnet → Nat × Nat × Nat → Nat × Nat × Nat
  | [], acc => acc
  | subnet :: rest, (totalAllocated, totalReserved, totalUsed) =>
    let totalReserved := wrapU64 (totalReserved + 5)
    let totalUsed := wrapU64 (totalUsed + wrapU64 subnet.UsedIps.length)
    let totalAllocated := wrapU64 (totalAllocated + AddressCount subnet.Cidr)
    subnetLoop rest (totalAllocated, totalReserved, totalUsed)

/-- The totals that `main` prints for one network. -/
def report (vpc : VPC) : Report :=
  let totalVpcIps := AddressCount vpc.Cidr
  match subnetLoop vpc.Subnets (0, 0, 0) with
  | (totalAllocated, totalReserved, totalUsed) =>
    { totalIPs := totalVpcIps
      totalUnallocated := subU64 totalVpcIps totalAllocated
      totalAllocated := totalAllocated
      totalAvailable := subU64 totalAllocated (wrapU64 (totalReserved + totalUsed))
      totalReserved := totalReserved
      totalUsed := totalUsed }

/-- The figure `Available IPs` printed for one subnet. -/
def availableIPs (subnet : Subnet) : Nat := subU64 (AddressCount subnet.Cidr) 5

/-! ## Counting addresses by category -/

/-- The addresses of a block in ascending order, from the network address. -/
def blockAddresses (c : Cidr) : List Nat :=
  (List.range (2 ^ c.hostBits)).map (fun k => c.ip + k)

/-- Build a 32-bit address from its four bytes. -/
def ipv4 (a b c d : Nat) : Nat := ((a * 256 + b) * 256 + c) * 256 + d

/-! ## The calls made by `ForEachIP` -/

/-- Run a callback over a list of calls, stopping at the first `none`. -/
def runCalls {σ : Type} (callback : σ → Int → Nat → Option σ) :
    List (Int × Nat) → σ → Option σ
  | [], st => some st
  | (i, ip) :: rest, st =>
    match callback st i ip with
    | none => none
    | some st1 => runCalls callback rest st1

/-- The outcome of a loop that ran to its end with the given result of the callbacks. -/
def Outcome.ofOption {σ : Type} : Option σ → Outcome σ
  | none => Outcome.aborted
  | some st => Outcome.finished st

/-- The calls `(k, b + k)` for `k = j, ..., j + n - 1` on the block with network address `b`. -/
def callsFrom (c : Cidr) (j n : Nat) : List (Int × Nat) :=
  (List.range' j n).map (fun k : Nat => ((k : Int), c.ip + k))

/-! ## Descriptions used for the report -/

/-- The five reserved addresses of a subnet as numbers: the network address, the three
numbers after it and the last number of the block. -/
def reservedList (s : Subnet) : List Nat :=
  [s.Cidr.ip, s.Cidr.ip + 1, s.Cidr.ip + 2, s.Cidr.ip + 3,
    s.Cidr.ip + 2 ^ (32 - s.Cidr.prefixLen) - 1]

/-- Two blocks, as intervals of numbers, have no address in common. -/
def blocksApart (s t : Subnet) : Prop :=
  s.Cidr.ip + 2 ^ (32 - s.Cidr.prefixLen) ≤ t.Cidr.ip ∨
    t.Cidr.ip + 2 ^ (32 - t.Cidr.prefixLen) ≤ s.Cidr.ip

instance (s t : Subnet) : Decidable (blocksApart s t) := by
  unfold blocksApart; infer_instance

/-! ## The Z-order curve, used to describe `mapPos` -/

/-- Position of index `i` on the Z-order curve of a square of side `2 ^ k`. -/
def zOrder : Nat → Nat → Nat × Nat
  | 0, _ => (0, 0)
  | k + 1, i =>
    ((zOrder k (i % 4 ^ k)).1 + (i / 4 ^ k % 2) * 2 ^ k,
     (zOrder k (i % 4 ^ k)).2 + (i / 4 ^ k / 2) * 2 ^ k)

/-- Index on the Z-order curve of the position `(x, y)` of a square of side `2 ^ k`. -/
def zIndex : Nat → Nat → Nat → Nat
  | 0, _, _ => 0
  | k + 1, x, y => zIndex k (x % 2 ^ k) (y % 2 ^ k) + (x / 2 ^ k + 2 * (y / 2 ^ k)) * 4 ^ k

/-! ## The divisors of `mapPos` and the bit formula -/

/-- The values of `subBlockSize` with which `mapPos(i, dim)` and its nested calls evaluate
the remainder `i % subBlockSize`, outermost call first; the list ends at the first
value 0, where the program stops. -/
def mapPosDivisors (dim : Int) : List Int :=
  if h : dim ≤ 1 then []
  else if wrap64 (Int.tdiv dim 2 * Int.tdiv dim 2) = 0 then
    [wrap64 (Int.tdiv dim 2 * Int.tdiv dim 2)]
  else wrap64 (Int.tdiv dim 2 * Int.tdiv dim 2) :: mapPosDivisors (Int.tdiv dim 2)
termination_by dim.toNat
decreasing_by
  have h0 : (0 : Int) ≤ dim := le_trans (by decide) (le_of_lt (lt_of_not_le h))
  rw [Int.tdiv_eq_ediv h0 (by decide)]
  omega

/-- The bit of `i` at position `n`, as 0 or 1. -/
def bitAt (i n : Nat) : Nat := i / 2 ^ n % 2

/-- The number formed by the bits of `i` at the even positions `0, 2, ..., 2k-2`:
the sum over `j < k` of `bit(i, 2j) * 2^j`. -/
def mortonX (k i : Nat) : Nat :=
  ((List.range k).map (fun j => bitAt i (2 * j) * 2 ^ j)).sum

/-- The number formed by the bits of `i` at the odd positions `1, 3, ..., 2k-1`:
the sum over `j < k` of `bit(i, 2j+1) * 2^j`. -/
def mortonY (k i : Nat) : Nat :=
  ((List.range k).map (fun j => bitAt i (2 * j + 1) * 2 ^ j)).sum

/-! ## Blocks as intervals of numbers -/

theorem land_mask (x h : Nat) (hx : x < 2 ^ 32) (hh : h ≤ 32) :
    x &&& (2 ^ 32 - 2 ^ h) = x / 2 ^ h * 2 ^ h := by
  have hm : 2 ^ 32 - 2 ^ h = 2 ^ h * (2 ^ (32 - h) - 1) := by
    rw [Nat.mul_sub, ← pow_add, Nat.add_sub_cancel' hh, mul_one]
  rw [hm]
  apply Nat.eq_of_testBit_eq
  intro i
  rw [Nat.testBit_and, Nat.testBit_mul_pow_two, Nat.mul_comm (x / 2 ^ h), Nat.testBit_mul_pow_two,
    Nat.testBit_two_pow_sub_one, ← Nat.shiftRight_eq_div_pow, Nat.testBit_shiftRight]
  by_cases hi : h ≤ i
  · simp only [ge_iff_le, hi, decide_True, Bool.true_and]
    rw [Nat.add_sub_cancel' hi]
    by_cases h32 : i < 32
    · have : i - h < 32 - h := by omega
      simp [this]
    · have : ¬ (i - h < 32 - h) := by omega
      have hx2 : x < 2 ^ i := lt_of_lt_of_le hx (Nat.pow_le_pow_right (by decide) (by omega))
      simp [this, Nat.testBit_lt_two_pow hx2]
  · simp [hi]

theorem lor_low (b h : Nat) (hb : b % 2 ^ h = 0) : (2 ^ h - 1) ||| b = b + (2 ^ h - 1) := by
  obtain ⟨a, rfl⟩ : 2 ^ h ∣ b := Nat.dvd_of_mod_eq_zero hb
  have hlt : 2 ^ h - 1 < 2 ^ h := Nat.sub_lt (Nat.two_pow_pos h) (by decide)
  rw [Nat.lor_comm, ← Nat.mul_add_lt_is_or hlt]

theorem Contains_iff (c : Cidr) (ip : Nat) (hc : c.Valid) (hip : ip < 2 ^ 32) :
    c.Contains ip = true ↔ c.ip ≤ ip ∧ ip < c.ip + 2 ^ c.hostBits := by
  obtain ⟨hp, hlt, hal⟩ := hc
  have hh : c.hostBits ≤ 32 := by unfold Cidr.hostBits; omega
  unfold Cidr.Contains Cidr.mask
  rw [beq_iff_eq, land_mask _ _ hlt hh, land_mask _ _ hip hh]
  have hpos : 0 < 2 ^ c.hostBits := Nat.two_pow_pos _
  obtain ⟨a, ha⟩ : 2 ^ c.hostBits ∣ c.ip := Nat.dvd_of_mod_eq_zero hal
  generalize 2 ^ c.hostBits = m at *
  rw [ha, Nat.mul_div_cancel_left _ hpos]
  constructor
  · intro h
    have h1 := Nat.div_add_mod ip m
    have h2 := Nat.mod_lt ip hpos
    have h3 : m * (ip / m) = m * a := by rw [Nat.mul_comm, ← h, Nat.mul_comm]
    rw [h3] at h1
    generalize m * a = q at h1 ⊢
    omega
  · rintro ⟨h1, h2⟩
    have : ip / m = a := by
      apply Nat.div_eq_of_lt_le
      · rw [Nat.mul_comm]; exact h1
      · rw [Nat.succ_mul, Nat.mul_comm]; exact h2
    rw [this]

theorem AddressRange_fst (c : Cidr) : (AddressRange c).1 = c.ip := by
  unfold AddressRange; split <;> rfl

theorem AddressRange_snd (c : Cidr) (hc : c.Valid) :
    (AddressRange c).2 = c.ip + (2 ^ c.hostBits - 1) := by
  unfold AddressRange
  split
  · next h => simp [Cidr.hostBits, h]
  · exact lor_low _ _ hc.2.2

/-! ## The first-match loop -/

theorem firstMatch_none (answer : Subnet → Nat → Bool) (ip : Nat) (subs : List Subnet)
    (h : ∀ s ∈ subs, s.Cidr.Contains ip = false) : firstMatch answer ip subs = false := by
  induction subs with
  | nil => rfl
  | cons s rest ih =>
    have hs : s.Cidr.Contains ip = false := h s (List.mem_cons_self _ _)
    simp only [firstMatch, hs]
    exact ih (fun t ht => h t (List.mem_cons_of_mem _ ht))

theorem firstMatch_first (answer : Subnet → Nat → Bool) (ip : Nat) (pre : List Subnet)
    (s : Subnet) (post : List Subnet) (hpre : ∀ t ∈ pre, t.Cidr.Contains ip = false)
    (hs : s.Cidr.Contains ip = true) :
    firstMatch answer ip (pre ++ s :: post) = answer s ip := by
  induction pre with
  | nil => simp [firstMatch, hs]
  | cons t rest ih =>
    have ht : t.Cidr.Contains ip = false := hpre t (List.mem_cons_self _ _)
    simp only [List.cons_append, firstMatch, ht]
    exact ih (fun u hu => hpre u (List.mem_cons_of_mem _ hu))

theorem firstMatch_split (ip : Nat) (subs : List Subnet)
    (h : ∃ s ∈ subs, s.Cidr.Contains ip = true) :
    ∃ pre s post, subs = pre ++ s :: post ∧ (∀ t ∈ pre, t.Cidr.Contains ip = false) ∧
      s.Cidr.Contains ip = true := by
  induction subs with
  | nil => obtain ⟨s, hs, _⟩ := h; cases hs
  | cons t rest ih =>
    by_cases ht : t.Cidr.Contains ip = true
    · exact ⟨[], t, rest, rfl, by simp, ht⟩
    · have hrest : ∃ s ∈ rest, s.Cidr.Contains ip = true := by
        obtain ⟨s, hs, hc⟩ := h
        rcases List.mem_cons.mp hs with rfl | hs
        · exact absurd hc ht
        · exact ⟨s, hs, hc⟩
      obtain ⟨pre, s, post, he, hp, hc⟩ := ih hrest
      refine ⟨t :: pre, s, post, by simp [he], ?_, hc⟩
      intro u hu
      rcases List.mem_cons.mp hu with rfl | hu
      · simpa using ht
      · exact hp u hu

/-! ## `mapPos` without overflow -/

theorem wrap64_eq (x : Int) (h1 : -2 ^ 63 ≤ x) (h2 : x < 2 ^ 63) : wrap64 x = x := by
  unfold wrap64
  rw [Int.emod_eq_of_lt (by omega) (by omega)]
  omega

theorem four_pow_eq (k : Nat) : 4 ^ k = 2 ^ k * 2 ^ k := by
  rw [← mul_pow]; rfl

theorem two_pow_le_30 (k : Nat) (hk : k ≤ 30) : 2 ^ k ≤ 2 ^ 30 :=
  Nat.pow_le_pow_right (by decide) hk

theorem zOrder_lt (k i : Nat) (hi : i < 4 ^ k) :
    (zOrder k i).1 < 2 ^ k ∧ (zOrder k i).2 < 2 ^ k := by
  induction k generalizing i with
  | zero => simp [zOrder]
  | succ k ih =>
    have hpos : 0 < 4 ^ k := Nat.pos_pow_of_pos _ (by decide)
    have hm := ih (i % 4 ^ k) (Nat.mod_lt _ hpos)
    have hq : i / 4 ^ k < 4 := by
      rw [Nat.div_lt_iff_lt_mul hpos]
      rw [pow_succ] at hi; omega
    simp only [zOrder]
    rw [pow_succ]
    have h1 : i / 4 ^ k % 2 ≤ 1 := by omega
    have h2 : i / 4 ^ k / 2 ≤ 1 := by omega
    constructor <;> nlinarith


theorem zIndex_lt (k x y : Nat) (hx : x < 2 ^ k) (hy : y < 2 ^ k) : zIndex k x y < 4 ^ k := by
  induction k generalizing x y with
  | zero => simp [zIndex]
  | succ k ih =>
    have hpos : 0 < 2 ^ k := Nat.two_pow_pos k
    have hm := ih (x % 2 ^ k) (y % 2 ^ k) (Nat.mod_lt _ hpos) (Nat.mod_lt _ hpos)
    have hqx : x / 2 ^ k < 2 := by
      rw [Nat.div_lt_iff_lt_mul hpos]; rw [pow_succ] at hx; omega
    have hqy : y / 2 ^ k < 2 := by
      rw [Nat.div_lt_iff_lt_mul hpos]; rw [pow_succ] at hy; omega
    simp only [zIndex]
    rw [pow_succ]
    have h3 : x / 2 ^ k + 2 * (y / 2 ^ k) ≤ 3 := by omega
    nlinarith

theorem zIndex_zOrder (k i : Nat) (hi : i < 4 ^ k) :
    zIndex k (zOrder k i).1 (zOrder k i).2 = i := by
  induction k generalizing i with
  | zero => simp at hi; simp [zIndex, hi]
  | succ k ih =>
    have hpos : 0 < 4 ^ k := Nat.pos_pow_of_pos _ (by decide)
    have hpos2 : 0 < 2 ^ k := Nat.two_pow_pos k
    have hm := ih (i % 4 ^ k) (Nat.mod_lt _ hpos)
    obtain ⟨b1, b2⟩ := zOrder_lt k (i % 4 ^ k) (Nat.mod_lt _ hpos)
    have hq : i / 4 ^ k < 4 := by
      rw [Nat.div_lt_iff_lt_mul hpos]
      rw [pow_succ] at hi; omega
    simp only [zIndex, zOrder]
    rw [Nat.add_mul_mod_self_right, Nat.add_mul_mod_self_right, Nat.mod_eq_of_lt b1,
      Nat.mod_eq_of_lt b2, hm, Nat.add_mul_div_right _ _ hpos2, Nat.add_mul_div_right _ _ hpos2,
      Nat.div_eq_of_lt b1, Nat.div_eq_of_lt b2]
    have e : 0 + i / 4 ^ k % 2 + 2 * (0 + i / 4 ^ k / 2) = i / 4 ^ k := by omega
    rw [e, Nat.mul_comm]
    exact Nat.mod_add_div i (4 ^ k)

theorem zOrder_zIndex (k x y : Nat) (hx : x < 2 ^ k) (hy : y < 2 ^ k) :
    zOrder k (zIndex k x y) = (x, y) := by
  induction k generalizing x y with
  | zero =>
    simp at hx hy
    simp [zOrder, hx, hy]
  | succ k ih =>
    have hpos : 0 < 4 ^ k := Nat.pos_pow_of_pos _ (by decide)
    have hpos2 : 0 < 2 ^ k := Nat.two_pow_pos k
    have hm := ih (x % 2 ^ k) (y % 2 ^ k) (Nat.mod_lt _ hpos2) (Nat.mod_lt _ hpos2)
    have hl := zIndex_lt k (x % 2 ^ k) (y % 2 ^ k) (Nat.mod_lt _ hpos2) (Nat.mod_lt _ hpos2)
    have hqx : x / 2 ^ k < 2 := by
      rw [Nat.div_lt_iff_lt_mul hpos2]; rw [pow_succ] at hx; omega
    have hqy : y / 2 ^ k < 2 := by
      rw [Nat.div_lt_iff_lt_mul hpos2]; rw [pow_succ] at hy; omega
    simp only [zOrder, zIndex]
    rw [Nat.add_mul_mod_self_right, Nat.mod_eq_of_lt hl, hm, Nat.add_mul_div_right _ _ hpos,
      Nat.div_eq_of_lt hl]
    have e1 : (0 + (x / 2 ^ k + 2 * (y / 2 ^ k))) % 2 = x / 2 ^ k := by
      generalize x / 2 ^ k = qx at hqx ⊢
      generalize y / 2 ^ k = qy at hqy ⊢
      omega
    have e2 : (0 + (x / 2 ^ k + 2 * (y / 2 ^ k))) / 2 = y / 2 ^ k := by
      generalize x / 2 ^ k = qx at hqx ⊢
      generalize y / 2 ^ k = qy at hqy ⊢
      omega
    rw [e1, e2]
    simp only [Prod.mk.injEq]
    constructor
    · rw [Nat.mul_comm]; exact Nat.mod_add_div x (2 ^ k)
    · rw [Nat.mul_comm]; exact Nat.mod_add_div y (2 ^ k)

theorem mapPos_base (i dim : Int) (h : dim ≤ 1) : mapPos i dim = some (0, 0) := by
  rw [mapPos]; simp [h]

/-- One unfolding of `mapPos` on a square of side `2 * d` with `1 ≤ d ≤ 2 ^ 30`: no
operation overflows. -/
theorem mapPos_step (i d x y : Int) (hd1 : 1 ≤ d) (hd2 : d ≤ 2 ^ 30) (hi0 : 0 ≤ i)
    (hi : i < 4 * (d * d)) (hrec : mapPos (i % (d * d)) d = some (x, y))
    (hx0 : 0 ≤ x) (hx : x < d) (hy0 : 0 ≤ y) (hy : y < d) :
    mapPos i (2 * d) =
      if 3 * (d * d) ≤ i then some (x + d, y + d)
      else if 2 * (d * d) ≤ i then some (x, y + d)
      else if d * d ≤ i then some (x + d, y)
      else some (x, y) := by
  have hdd1 : 1 ≤ d * d := by nlinarith
  have hdd2 : d * d ≤ 2 ^ 60 := by nlinarith
  have e1 : Int.tdiv (2 * d) 2 = d := by
    rw [Int.tdiv_eq_ediv (by omega) (by decide)]; omega
  rw [mapPos]
  simp only [e1]
  have e2 : wrap64 (d * d) = d * d := wrap64_eq _ (by omega) (by omega)
  have e3 : wrap64 (d * d * 3) = 3 * (d * d) := by
    rw [wrap64_eq _ (by omega) (by omega)]; ring
  have e4 : wrap64 (d * d * 2) = 2 * (d * d) := by
    rw [wrap64_eq _ (by omega) (by omega)]; ring
  have e5 : Int.tmod i (d * d) = i % (d * d) := Int.tmod_eq_emod hi0 (by omega)
  have e6 : wrap64 (x + d) = x + d := wrap64_eq _ (by omega) (by omega)
  have e7 : wrap64 (y + d) = y + d := wrap64_eq _ (by omega) (by omega)
  rw [e2, e3, e4, e5, hrec]
  have n1 : ¬ (2 * d ≤ 1) := by omega
  have n2 : ¬ (d * d = 0) := by omega
  simp only [n1, n2, dite_false, ite_false, e6, e7, ge_iff_le]

theorem mapPos_eq_zOrder (k : Nat) (hk : k ≤ 31) (i : Nat) (hi : i < 4 ^ k) :
    mapPos (i : Int) (2 ^ k) = some (((zOrder k i).1 : Int), ((zOrder k i).2 : Int)) := by
  induction k generalizing i with
  | zero => rw [mapPos_base _ _ (by norm_num)]; simp [zOrder]
  | succ k ih =>
    have hk30 : k ≤ 30 := by omega
    have hpos : 0 < 4 ^ k := Nat.pos_pow_of_pos _ (by decide)
    have hpos2 : 0 < 2 ^ k := Nat.two_pow_pos k
    have hm := ih (by omega) (i % 4 ^ k) (Nat.mod_lt _ hpos)
    obtain ⟨b1, b2⟩ := zOrder_lt k (i % 4 ^ k) (Nat.mod_lt _ hpos)
    have hD := two_pow_le_30 k hk30
    have h4 := four_pow_eq k
    have hq : i / 4 ^ k < 4 := by
      rw [Nat.div_lt_iff_lt_mul hpos]
      rw [pow_succ] at hi; omega
    have hdm := Nat.div_add_mod i (4 ^ k)
    have hml := Nat.mod_lt i hpos
    have hdd : ((2 : Int) ^ k) * 2 ^ k = ((4 ^ k : Nat) : Int) := by
      rw [h4]; push_cast; ring
    have hrec : mapPos ((i : Int) % ((2 : Int) ^ k * 2 ^ k)) (2 ^ k)
        = some (((zOrder k (i % 4 ^ k)).1 : Int), ((zOrder k (i % 4 ^ k)).2 : Int)) := by
      rw [hdd, ← Int.natCast_mod]; exact hm
    have hstep := mapPos_step (i : Int) (2 ^ k) _ _ (by exact_mod_cast hpos2)
      (by exact_mod_cast hD) (by omega) (by rw [hdd]; rw [pow_succ] at hi; omega) hrec
      (by omega) (by exact_mod_cast b1) (by omega) (by exact_mod_cast b2)
    rw [pow_succ, mul_comm, hstep, hdd]
    simp only [zOrder]
    generalize i / 4 ^ k = q at hq hdm ⊢
    generalize zOrder k (i % 4 ^ k) = z
    generalize i % 4 ^ k = r at hdm hml ⊢
    generalize 4 ^ k = S at *
    have hq4 : q = 0 ∨ q = 1 ∨ q = 2 ∨ q = 3 := by omega
    rcases hq4 with rfl | rfl | rfl | rfl
    · have c1 : ¬ (3 * (S : Int) ≤ i) := by omega
      have c2 : ¬ (2 * (S : Int) ≤ i) := by omega
      have c3 : ¬ ((S : Int) ≤ i) := by omega
      simp [c1, c2, c3]
    · have c1 : ¬ (3 * (S : Int) ≤ i) := by omega
      have c2 : ¬ (2 * (S : Int) ≤ i) := by omega
      have c3 : ((S : Int) ≤ i) := by omega
      simp [c1, c2, c3]
    · have c1 : ¬ (3 * (S : Int) ≤ i) := by omega
      have c2 : (2 * (S : Int) ≤ i) := by omega
      simp [c1, c2]
    · have c1 : (3 * (S : Int) ≤ i) := by omega
      simp [c1]

/-! ## The loop of `ForEachIP` -/

theorem Cidr.block_le (c : Cidr) (hc : c.Valid) : c.ip + 2 ^ c.hostBits ≤ 2 ^ 32 := by
  obtain ⟨hp, hlt, hal⟩ := hc
  obtain ⟨a, ha⟩ : 2 ^ c.hostBits ∣ c.ip := Nat.dvd_of_mod_eq_zero hal
  have hh : c.hostBits ≤ 32 := by unfold Cidr.hostBits; omega
  obtain ⟨b, hb⟩ : 2 ^ c.hostBits ∣ 2 ^ 32 := pow_dvd_pow 2 hh
  have hpos : 0 < 2 ^ c.hostBits := Nat.two_pow_pos _
  rw [ha, hb] at hlt
  have hab : a < b := lt_of_mul_lt_mul_left hlt (Nat.zero_le _)
  rw [ha, hb]
  calc 2 ^ c.hostBits * a + 2 ^ c.hostBits = 2 ^ c.hostBits * (a + 1) := by ring
    _ ≤ 2 ^ c.hostBits * b := Nat.mul_le_mul_left _ hab

theorem Contains_offset (c : Cidr) (hc : c.Valid) (j : Nat) (hj : j < 2 ^ c.hostBits) :
    c.Contains (c.ip + j) = true := by
  have hb := c.block_le hc
  rw [Contains_iff c _ hc (by omega)]
  omega

theorem Contains_after (c : Cidr) (hc : c.Valid) (hp : 1 ≤ c.prefixLen) :
    c.Contains ((c.ip + 2 ^ c.hostBits) % 2 ^ 32) = false := by
  have hb := c.block_le hc
  have hpos : 0 < 2 ^ c.hostBits := Nat.two_pow_pos _
  have hh : 2 ^ c.hostBits ≤ 2 ^ 31 :=
    Nat.pow_le_pow_right (by decide) (by unfold Cidr.hostBits; omega)
  have hlt : (c.ip + 2 ^ c.hostBits) % 2 ^ 32 < 2 ^ 32 := Nat.mod_lt _ (by decide)
  cases hcon : c.Contains ((c.ip + 2 ^ c.hostBits) % 2 ^ 32) with
  | false => rfl
  | true =>
    rw [Contains_iff c _ hc hlt] at hcon
    omega

theorem runCalls_append {σ : Type} (callback : σ → Int → Nat → Option σ)
    (l1 l2 : List (Int × Nat)) (st : σ) :
    runCalls callback (l1 ++ l2) st =
      match runCalls callback l1 st with
      | none => none
      | some st1 => runCalls callback l2 st1 := by
  induction l1 generalizing st with
  | nil => rfl
  | cons p rest ih =>
    obtain ⟨i, ip⟩ := p
    simp only [List.cons_append, runCalls]
    cases callback st i ip with
    | none => rfl
    | some st1 => exact ih st1

theorem runCalls_recordCall (l : List (Int × Nat)) (st : List (Int × Nat)) :
    runCalls recordCall l st = some (st ++ l) := by
  induction l generalizing st with
  | nil => simp [runCalls]
  | cons p rest ih =>
    obtain ⟨i, ip⟩ := p
    simp only [runCalls, recordCall]
    rw [ih]
    simp

theorem forEachIPLoop_run {σ : Type} (c : Cidr) (hc : c.Valid) (hp : 1 ≤ c.prefixLen)
    (callback : σ → Int → Nat → Option σ) (n : Nat) :
    ∀ (j fuel : Nat) (st : σ), j + n = 2 ^ c.hostBits → n < fuel →
      forEachIPLoop c callback fuel ((c.ip + j) % 2 ^ 32) j st
        = Outcome.ofOption (runCalls callback (callsFrom c j n) st) := by
  have hb := c.block_le hc
  induction n with
  | zero =>
    intro j fuel st hj hf
    obtain ⟨f, rfl⟩ : ∃ f, fuel = f + 1 := ⟨fuel - 1, by omega⟩
    have hout : c.Contains ((c.ip + j) % 2 ^ 32) = false := by
      rw [Nat.add_zero] at hj
      rw [hj]
      exact Contains_after c hc hp
    simp only [forEachIPLoop, hout]
    rfl
  | succ n ih =>
    intro j fuel st hj hf
    obtain ⟨f, rfl⟩ : ∃ f, fuel = f + 1 := ⟨fuel - 1, by omega⟩
    have hmod : (c.ip + j) % 2 ^ 32 = c.ip + j := Nat.mod_eq_of_lt (by omega)
    have hin : c.Contains (c.ip + j) = true := Contains_offset c hc j (by omega)
    have hinc : Inc (c.ip + j) = (c.ip + (j + 1)) % 2 ^ 32 := by
      unfold Inc; rw [Nat.add_assoc]
    have hw : wrap64 ((j : Int) + 1) = ((j + 1 : Nat) : Int) := by
      rw [wrap64_eq _ (by omega) (by omega)]; push_cast; rfl
    rw [hmod]
    simp only [forEachIPLoop, hin, if_true, callsFrom, List.range'_succ, List.map_cons, runCalls]
    cases callback st (j : Int) (c.ip + j) with
    | none => rfl
    | some st1 =>
      simp only [hinc, hw]
      exact ih (j + 1) f st1 (by omega) (by omega)

theorem forEachIPLoop_mono {σ : Type} (c : Cidr) (callback : σ → Int → Nat → Option σ)
    (fuel : Nat) :
    ∀ (ip : Nat) (i : Int) (st res : σ) (more : Nat),
      forEachIPLoop c callback fuel ip i st = Outcome.finished res →
      forEachIPLoop c callback (fuel + more) ip i st = Outcome.finished res := by
  induction fuel with
  | zero => intro ip i st res more h; simp [forEachIPLoop] at h
  | succ f ih =>
    intro ip i st res more h
    rw [Nat.add_right_comm]
    simp only [forEachIPLoop] at h ⊢
    by_cases hin : c.Contains ip = true
    · simp only [hin, if_true] at h ⊢
      cases hcb : callback st i ip with
      | none => rw [hcb] at h; cases h
      | some st1 =>
        rw [hcb] at h
        exact ih _ _ _ _ _ h
    · simp only [hin] at h ⊢
      exact h

theorem Contains_slash_zero (ip0 ip : Nat) : (⟨ip0, 0⟩ : Cidr).Contains ip = true := by
  unfold Cidr.Contains Cidr.mask Cidr.hostBits
  simp

theorem forEachIPLoop_slash_zero {σ : Type} (ip0 : Nat) (callback : σ → Int → Nat → Option σ)
    (fuel : Nat) :
    ∀ (ip : Nat) (i : Int) (st res : σ),
      forEachIPLoop ⟨ip0, 0⟩ callback fuel ip i st ≠ Outcome.finished res := by
  induction fuel with
  | zero => intro ip i st res h; simp [forEachIPLoop] at h
  | succ f ih =>
    intro ip i st res h
    simp only [forEachIPLoop, Contains_slash_zero, if_true] at h
    cases hcb : callback st i ip with
    | none => rw [hcb] at h; cases h
    | some st1 =>
      rw [hcb] at h
      exact ih _ _ _ _ h

theorem VPC.ForEachIP_eq {σ : Type} (v : VPC) (fuel : Nat)
    (callback : σ → Int → Nat → Option σ) (st : σ) :
    v.ForEachIP fuel callback st = forEachIPLoop v.Cidr callback fuel v.Cidr.ip 0 st := by
  show forEachIPLoop v.Cidr callback fuel (AddressRange v.Cidr).1 0 st = _
  rw [AddressRange_fst]

/-- On every block with prefix length `1 ≤ p ≤ 32` and network address `b`, `ForEachIP`
with more than `2^(32-p)` units of fuel ends after calling the callback exactly
`2^(32-p)` times, the `k`-th call receiving index `k` and address `b + k`. -/
theorem ForEachIP_calls (v : VPC) (hc : v.Cidr.Valid) (hp : 1 ≤ v.Cidr.prefixLen)
    (fuel : Nat) (hf : 2 ^ (32 - v.Cidr.prefixLen) < fuel) :
    v.ForEachIP fuel recordCall [] = Outcome.finished
      ((List.range (2 ^ (32 - v.Cidr.prefixLen))).map
        (fun k : Nat => ((k : Int), v.Cidr.ip + k))) := by
  have hrun := forEachIPLoop_run v.Cidr hc hp recordCall (2 ^ v.Cidr.hostBits) 0 fuel []
    (by omega) hf
  have hstart : (v.Cidr.ip + 0) % 2 ^ 32 = v.Cidr.ip := Nat.mod_eq_of_lt hc.2.1
  rw [hstart] at hrun
  rw [VPC.ForEachIP_eq]
  simp only [Nat.cast_zero] at hrun
  rw [hrun, runCalls_recordCall]
  simp [Outcome.ofOption, callsFrom, List.range_eq_range', Cidr.hostBits]

/-! ## The callback of `generateImage` -/

theorem Image.Set_inside (img : Image) (x y : Int) (c : RGBA)
    (hx0 : 0 ≤ x) (hx : x < img.side) (hy0 : 0 ≤ y) (hy : y < img.side) :
    (img.Set x y c).side = img.side ∧
      ∀ u v, (img.Set x y c).pix u v = if u = x ∧ v = y then c else img.pix u v := by
  unfold Image.Set
  rw [if_pos ⟨hx0, hx, hy0, hy⟩]
  exact ⟨rfl, fun _ _ => rfl⟩

theorem drawIP_inside (info : VPC) (d : Int) (img : Image) (i : Int) (ip : Nat) (x y : Int)
    (hpos : mapPos i d = some (x, y))
    (hx0 : 0 ≤ x) (hx : x < img.side) (hy0 : 0 ≤ y) (hy : y < img.side) :
    ∃ out, drawIP info d img i ip = some out ∧ out.side = img.side ∧
      out.pix x y = colourOf info ip ∧
      ∀ u v, ¬ (u = x ∧ v = y) → out.pix u v = img.pix u v := by
  obtain ⟨s1, p1⟩ := Image.Set_inside img x y unallocated hx0 hx hy0 hy
  have hx1 : x < (img.Set x y unallocated).side := by rw [s1]; exact hx
  have hy1 : y < (img.Set x y unallocated).side := by rw [s1]; exact hy
  have two : ∀ c : RGBA, ((img.Set x y unallocated).Set x y c).side = img.side ∧
      ((img.Set x y unallocated).Set x y c).pix x y = c ∧
      ∀ u v, ¬ (u = x ∧ v = y) → ((img.Set x y unallocated).Set x y c).pix u v = img.pix u v := by
    intro c
    obtain ⟨s2, p2⟩ := Image.Set_inside (img.Set x y unallocated) x y c hx0 hx1 hy0 hy1
    refine ⟨by rw [s2, s1], by rw [p2]; simp, ?_⟩
    intro u v huv
    rw [p2, if_neg huv, p1, if_neg huv]
  unfold drawIP colourOf
  rw [hpos]
  simp only
  by_cases h1 : info.IPInUse ip = true
  · simp only [h1, if_true]
    exact ⟨_, rfl, two inUse⟩
  · by_cases h2 : info.IPReserved ip = true
    · simp only [h1, h2, if_true, if_false]
      exact ⟨_, rfl, two reserved⟩
    · by_cases h3 : info.IPAllocated ip = true
      · simp only [h1, h2, h3, if_true, if_false]
        exact ⟨_, rfl, two allocated⟩
      · simp only [h1, h2, h3, if_false]
        refine ⟨_, rfl, s1, by rw [p1]; simp, ?_⟩
        intro u v huv
        rw [p1, if_neg huv]

theorem callsFrom_succ (c : Cidr) (n : Nat) :
    callsFrom c 0 (n + 1) = callsFrom c 0 n ++ [((n : Int), c.ip + n)] := by
  unfold callsFrom
  rw [List.range'_1_concat, List.map_append]
  simp

theorem zOrder_injective (k i j : Nat) (hi : i < 4 ^ k) (hj : j < 4 ^ k)
    (h : zOrder k i = zOrder k j) : i = j := by
  have e := zIndex_zOrder k i hi
  rw [h, zIndex_zOrder k j hj] at e
  exact e.symm

/-- The image after the first `n` calls of the callback of `generateImage`. -/
theorem drawIP_calls (info : VPC) (k : Nat) (hk : k ≤ 31) (n : Nat) (hn : n ≤ 4 ^ k) :
    ∃ img, runCalls (drawIP info (2 ^ k)) (callsFrom info.Cidr 0 n) (NewRGBA (2 ^ k)) = some img ∧
      img.side = 2 ^ k ∧
      ∀ j : Nat, j < n →
        img.pix ((zOrder k j).1 : Int) ((zOrder k j).2 : Int)
          = colourOf info (info.Cidr.ip + j) := by
  induction n with
  | zero => exact ⟨NewRGBA (2 ^ k), rfl, rfl, fun j hj => absurd hj (Nat.not_lt_zero _)⟩
  | succ n ih =>
    obtain ⟨img, hrun, hside, hpix⟩ := ih (by omega)
    have hn4 : n < 4 ^ k := by omega
    obtain ⟨b1, b2⟩ := zOrder_lt k n hn4
    have h2 : ((2 : Int) ^ k) = ((2 ^ k : Nat) : Int) := by push_cast; rfl
    obtain ⟨out, hout, oside, opix, orest⟩ :=
      drawIP_inside info (2 ^ k) img (n : Int) (info.Cidr.ip + n) _ _
        (mapPos_eq_zOrder k hk n hn4) (by omega) (by rw [hside, h2]; exact_mod_cast b1)
        (by omega) (by rw [hside, h2]; exact_mod_cast b2)
    refine ⟨out, ?_, by rw [oside, hside], ?_⟩
    · rw [callsFrom_succ, runCalls_append, hrun]
      simp only [runCalls, hout]
    · intro j hj
      by_cases hjn : j = n
      · rw [hjn]; exact opix
      · have hj' : j < n := by omega
        rw [orest, hpix j hj']
        intro hcon
        apply hjn
        apply zOrder_injective k j n (by omega) hn4
        apply Prod.ext
        · exact_mod_cast hcon.1
        · exact_mod_cast hcon.2

theorem generateImage_eq (fuel : Nat) (d : Int) (info : VPC) :
    generateImage fuel d info
      = forEachIPLoop info.Cidr (drawIP info d) fuel info.Cidr.ip 0 (NewRGBA d) := by
  unfold generateImage
  exact VPC.ForEachIP_eq info fuel (drawIP info d) (NewRGBA d)

/-- The run of `generateImage` on a block with prefix length at least 1. -/
theorem generateImage_run (info : VPC) (k : Nat) (hv : info.Cidr.Valid)
    (hp : 1 ≤ info.Cidr.prefixLen) (fuel : Nat) (hf : 2 ^ info.Cidr.hostBits < fuel) :
    generateImage fuel (2 ^ k) info = Outcome.ofOption
      (runCalls (drawIP info (2 ^ k)) (callsFrom info.Cidr 0 (2 ^ info.Cidr.hostBits))
        (NewRGBA (2 ^ k))) := by
  have hrun := forEachIPLoop_run info.Cidr hv hp (drawIP info (2 ^ k)) (2 ^ info.Cidr.hostBits)
    0 fuel (NewRGBA (2 ^ k)) (by omega) hf
  have hstart : (info.Cidr.ip + 0) % 2 ^ 32 = info.Cidr.ip := Nat.mod_eq_of_lt hv.2.1
  rw [hstart] at hrun
  rw [generateImage_eq]
  exact_mod_cast hrun

/-! ## The totals of the report -/

theorem AddressCount_eq (c : Cidr) : AddressCount c = 2 ^ (32 - c.prefixLen) := by
  unfold AddressCount wrapU64 Cidr.hostBits
  apply Nat.mod_eq_of_lt
  calc 2 ^ (32 - c.prefixLen) ≤ 2 ^ 32 := Nat.pow_le_pow_right (by decide) (by omega)
    _ < 2 ^ 64 := by decide

theorem subnetLoop_eq (subs : List Subnet) :
    ∀ a r u : Nat, a < 2 ^ 64 → r < 2 ^ 64 → u < 2 ^ 64 →
      subnetLoop subs (a, r, u) =
        ((a + (subs.map (fun s => 2 ^ (32 - s.Cidr.prefixLen))).sum) % 2 ^ 64,
         (r + 5 * subs.length) % 2 ^ 64,
         (u + (subs.map (fun s => s.UsedIps.length)).sum) % 2 ^ 64) := by
  induction subs with
  | nil =>
    intro a r u ha hr hu
    simp only [subnetLoop, List.map_nil, List.sum_nil, List.length_nil, Nat.mul_zero,
      Nat.add_zero, Nat.mod_eq_of_lt ha, Nat.mod_eq_of_lt hr, Nat.mod_eq_of_lt hu]
  | cons s rest ih =>
    intro a r u ha hr hu
    simp only [subnetLoop, wrapU64, AddressCount_eq]
    rw [ih _ _ _ (Nat.mod_lt _ (by decide)) (Nat.mod_lt _ (by decide))
      (Nat.mod_lt _ (by decide))]
    simp only [List.map_cons, List.sum_cons, List.length_cons, Prod.mk.injEq]
    generalize (rest.map (fun s => 2 ^ (32 - s.Cidr.prefixLen))).sum = A
    generalize (rest.map (fun s => s.UsedIps.length)).sum = U
    generalize 2 ^ (32 - s.Cidr.prefixLen) = c
    refine ⟨?_, ?_, ?_⟩ <;> omega

theorem subU64_eq (a b : Nat) (ha : a < 2 ^ 64) (hb : b ≤ a) : subU64 a b = a - b := by
  unfold subU64
  rw [Nat.mod_eq_of_lt (by omega : b < 2 ^ 64)]
  omega

theorem report_eq (vpc : VPC) :
    report vpc =
      { totalIPs := 2 ^ (32 - vpc.Cidr.prefixLen)
        totalUnallocated := subU64 (2 ^ (32 - vpc.Cidr.prefixLen))
          ((vpc.Subnets.map (fun s => 2 ^ (32 - s.Cidr.prefixLen))).sum % 2 ^ 64)
        totalAllocated := (vpc.Subnets.map (fun s => 2 ^ (32 - s.Cidr.prefixLen))).sum % 2 ^ 64
        totalAvailable := subU64
          ((vpc.Subnets.map (fun s => 2 ^ (32 - s.Cidr.prefixLen))).sum % 2 ^ 64)
          (wrapU64 ((5 * vpc.Subnets.length) % 2 ^ 64
            + (vpc.Subnets.map (fun s => s.UsedIps.length)).sum % 2 ^ 64))
        totalReserved := (5 * vpc.Subnets.length) % 2 ^ 64
        totalUsed := (vpc.Subnets.map (fun s => s.UsedIps.length)).sum % 2 ^ 64 } := by
  unfold report
  rw [subnetLoop_eq _ 0 0 0 (by decide) (by decide) (by decide), AddressCount_eq]
  simp

/-! ## Reserved and in-use addresses of tidy networks -/

theorem IPReserved_iff_mod (s : Subnet) (ip : Nat) (hs : s.Cidr.Valid) :
    s.IPReserved ip = true ↔
      (ip = s.Cidr.ip ∨ ip = (s.Cidr.ip + 1) % 2 ^ 32 ∨ ip = (s.Cidr.ip + 2) % 2 ^ 32 ∨
        ip = (s.Cidr.ip + 3) % 2 ^ 32 ∨ ip = s.Cidr.ip + 2 ^ (32 - s.Cidr.prefixLen) - 1) := by
  have hlast := AddressRange_snd s.Cidr hs
  simp only [Subnet.IPReserved, Inc, hlast, Bool.or_eq_true, beq_iff_eq, Cidr.hostBits]
  have e2 : ((s.Cidr.ip + 1) % 2 ^ 32 + 1) % 2 ^ 32 = (s.Cidr.ip + 2) % 2 ^ 32 := by omega
  have e3 : ((s.Cidr.ip + 2) % 2 ^ 32 + 1) % 2 ^ 32 = (s.Cidr.ip + 3) % 2 ^ 32 := by omega
  rw [e2, e3]
  have e4 : s.Cidr.ip + (2 ^ (32 - s.Cidr.prefixLen) - 1)
      = s.Cidr.ip + 2 ^ (32 - s.Cidr.prefixLen) - 1 := by
    have : 0 < 2 ^ (32 - s.Cidr.prefixLen) := Nat.two_pow_pos _
    omega
  rw [e4]
  tauto

theorem block_size_ge_8 (c : Cidr) (hp : c.prefixLen ≤ 29) : 8 ≤ 2 ^ (32 - c.prefixLen) :=
  calc 8 = 2 ^ 3 := rfl
    _ ≤ 2 ^ (32 - c.prefixLen) := Nat.pow_le_pow_right (by decide) (by omega)

theorem IPReserved_iff_mem (s : Subnet) (ip : Nat) (hs : s.Cidr.Valid)
    (hp : s.Cidr.prefixLen ≤ 29) : s.IPReserved ip = true ↔ ip ∈ reservedList s := by
  have hb : s.Cidr.ip + 2 ^ (32 - s.Cidr.prefixLen) ≤ 2 ^ 32 := s.Cidr.block_le hs
  have h8 := block_size_ge_8 s.Cidr hp
  rw [IPReserved_iff_mod s ip hs, Nat.mod_eq_of_lt (by omega : s.Cidr.ip + 1 < 2 ^ 32),
    Nat.mod_eq_of_lt (by omega : s.Cidr.ip + 2 < 2 ^ 32),
    Nat.mod_eq_of_lt (by omega : s.Cidr.ip + 3 < 2 ^ 32)]
  simp [reservedList]

theorem reservedList_nodup (s : Subnet) (hp : s.Cidr.prefixLen ≤ 29) :
    (reservedList s).Nodup := by
  have h8 := block_size_ge_8 s.Cidr hp
  simp only [reservedList, List.nodup_cons, List.mem_cons, List.mem_singleton, List.not_mem_nil,
    List.nodup_nil, not_or, not_false_eq_true, and_true]
  omega

theorem reservedList_in_block (s : Subnet) (hp : s.Cidr.prefixLen ≤ 29) (a : Nat)
    (ha : a ∈ reservedList s) :
    s.Cidr.ip ≤ a ∧ a < s.Cidr.ip + 2 ^ (32 - s.Cidr.prefixLen) := by
  have h8 := block_size_ge_8 s.Cidr hp
  simp only [reservedList, List.mem_cons, List.mem_singleton, List.not_mem_nil, or_false] at ha
  omega

theorem usedLoop_iff (ip : Nat) (l : List Nat) : usedLoop ip l = true ↔ ip ∈ l := by
  induction l with
  | nil => simp [usedLoop]
  | cons u rest ih =>
    simp only [usedLoop, List.mem_cons]
    by_cases h : ip = u
    · simp [h]
    · simp [h, ih]

theorem Contains_iff_interval (c : Cidr) (ip : Nat) (hc : c.Valid) (hip : ip < 2 ^ 32) :
    c.Contains ip = true ↔ c.ip ≤ ip ∧ ip < c.ip + 2 ^ (32 - c.prefixLen) :=
  Contains_iff c ip hc hip

theorem firstMatch_true (answer : Subnet → Nat → Bool) (ip : Nat) (subs : List Subnet)
    (h : firstMatch answer ip subs = true) :
    ∃ s ∈ subs, s.Cidr.Contains ip = true ∧ answer s ip = true := by
  induction subs with
  | nil => simp [firstMatch] at h
  | cons t rest ih =>
    simp only [firstMatch] at h
    by_cases ht : t.Cidr.Contains ip = true
    · rw [if_pos ht] at h
      exact ⟨t, List.mem_cons_self _ _, ht, h⟩
    · rw [if_neg ht] at h
      obtain ⟨s, hs, hc, ha⟩ := ih h
      exact ⟨s, List.mem_cons_of_mem _ hs, hc, ha⟩

/-- Among subnets whose blocks are pairwise apart, the subnet whose block holds the
address is the first match. -/
theorem firstMatch_of_apart (answer : Subnet → Nat → Bool) (ip : Nat) (hip : ip < 2 ^ 32)
    (subs : List Subnet) (hvalid : ∀ s ∈ subs, s.Cidr.Valid)
    (hapart : subs.Pairwise blocksApart) (s : Subnet) (hs : s ∈ subs)
    (hin : s.Cidr.ip ≤ ip ∧ ip < s.Cidr.ip + 2 ^ (32 - s.Cidr.prefixLen)) :
    firstMatch answer ip subs = answer s ip := by
  induction subs with
  | nil => cases hs
  | cons t rest ih =>
    rw [List.pairwise_cons] at hapart
    simp only [firstMatch]
    rcases List.mem_cons.mp hs with rfl | hs'
    · have : s.Cidr.Contains ip = true :=
        (Contains_iff_interval _ _ (hvalid s (List.mem_cons_self _ _)) hip).2 hin
      rw [if_pos this]
    · have hts := hapart.1 s hs'
      have hnot : ¬ (t.Cidr.Contains ip = true) := by
        rw [Contains_iff_interval _ _ (hvalid t (List.mem_cons_self _ _)) hip]
        unfold blocksApart at hts
        omega
      rw [if_neg hnot]
      exact ih (fun u hu => hvalid u (List.mem_cons_of_mem _ hu)) hapart.2 hs'

theorem mem_blockAddresses (c : Cidr) (a : Nat) :
    a ∈ blockAddresses c ↔ c.ip ≤ a ∧ a < c.ip + 2 ^ (32 - c.prefixLen) := by
  unfold blockAddresses Cidr.hostBits
  simp only [List.mem_map, List.mem_range]
  constructor
  · rintro ⟨k, hk, rfl⟩; omega
  · rintro ⟨h1, h2⟩; exact ⟨a - c.ip, by omega, by omega⟩

theorem blockAddresses_nodup (c : Cidr) : (blockAddresses c).Nodup := by
  unfold blockAddresses
  apply List.Nodup.map _ (List.nodup_range _)
  intro a b h
  simpa using h

theorem blockAddresses_length (c : Cidr) : (blockAddresses c).length = 2 ^ (32 - c.prefixLen) := by
  simp [blockAddresses, Cidr.hostBits]

theorem tdiv_two (dim : Int) (h : 2 ≤ dim) : Int.tdiv dim 2 = dim / 2 :=
  Int.tdiv_eq_ediv (by omega) (by decide)

theorem half_sq_bound (d : Int) (h1 : 1 ≤ d) (h : d * d < 2 ^ 63) : d ≤ 3037000499 := by
  by_contra hc
  have : 3037000500 ≤ d := by omega
  nlinarith

theorem half_sq_lt (d : Int) (h1 : 1 ≤ d) (h : d ≤ 3037000499) : d * d < 2 ^ 63 := by
  nlinarith

/-- Every call `mapPos(i, dim)` with `dim ≤ 6074000999` (so that `subDim * subDim` fits
the 64-bit `int` at every level) returns, with coordinates in `[0, max 1 dim)`. -/
theorem mapPos_total (n : Nat) :
    ∀ (dim : Int), dim ≤ n → dim ≤ 6074000999 → ∀ i : Int,
      ∃ x y : Int, mapPos i dim = some (x, y) ∧ 0 ≤ x ∧ x < max 1 dim ∧ 0 ≤ y ∧
        y < max 1 dim := by
  induction n with
  | zero =>
    intro dim h0 _ i
    refine ⟨0, 0, mapPos_base i dim (by omega), le_refl _, ?_, le_refl _, ?_⟩ <;>
      exact lt_of_lt_of_le (by decide) (le_max_left _ _)
  | succ n ih =>
    intro dim hn hB i
    by_cases h1 : dim ≤ 1
    · refine ⟨0, 0, mapPos_base i dim h1, le_refl _, ?_, le_refl _, ?_⟩ <;>
        exact lt_of_lt_of_le (by decide) (le_max_left _ _)
    · have h2 : 2 ≤ dim := by omega
      have e1 := tdiv_two dim h2
      have hd1 : 1 ≤ dim / 2 := by omega
      have hdB : dim / 2 ≤ 3037000499 := by omega
      have hsq := half_sq_lt (dim / 2) hd1 hdB
      have hsq1 : 1 ≤ dim / 2 * (dim / 2) := by nlinarith
      have hn' : dim / 2 ≤ (n : Int) := by push_cast at hn; omega
      have e2 : wrap64 (dim / 2 * (dim / 2)) = dim / 2 * (dim / 2) :=
        wrap64_eq _ (by omega) hsq
      obtain ⟨x, y, hrec, hx0, hx, hy0, hy⟩ :=
        ih (dim / 2) hn' (by omega) (Int.tmod i (dim / 2 * (dim / 2)))
      rw [max_eq_right hd1] at hx hy
      have e6 : wrap64 (x + dim / 2) = x + dim / 2 := wrap64_eq _ (by omega) (by omega)
      have e7 : wrap64 (y + dim / 2) = y + dim / 2 := wrap64_eq _ (by omega) (by omega)
      have hmax : max 1 dim = dim := max_eq_right (by omega)
      have n2 : ¬ (dim / 2 * (dim / 2) = 0) := by omega
      rw [mapPos]
      simp only [e1, e2, hrec, h1, n2, dite_false, ite_false, e6, e7, hmax]
      split_ifs
      · exact ⟨_, _, rfl, by omega, by omega, by omega, by omega⟩
      · exact ⟨_, _, rfl, by omega, by omega, by omega, by omega⟩
      · exact ⟨_, _, rfl, by omega, by omega, by omega, by omega⟩
      · exact ⟨_, _, rfl, by omega, by omega, by omega, by omega⟩

theorem mapPosDivisors_pos (n : Nat) :
    ∀ (dim : Int), dim ≤ n → dim ≤ 6074000999 → ∀ d ∈ mapPosDivisors dim, 1 ≤ d := by
  induction n with
  | zero =>
    intro dim h0 _ d hd
    rw [mapPosDivisors] at hd
    simp [show dim ≤ 1 by omega] at hd
  | succ n ih =>
    intro dim hn hB d hd
    by_cases h1 : dim ≤ 1
    · rw [mapPosDivisors] at hd
      simp [h1] at hd
    · have h2 : 2 ≤ dim := by omega
      have e1 := tdiv_two dim h2
      have hd1 : 1 ≤ dim / 2 := by omega
      have hdB : dim / 2 ≤ 3037000499 := by omega
      have hsq := half_sq_lt (dim / 2) hd1 hdB
      have hsq1 : 1 ≤ dim / 2 * (dim / 2) := by nlinarith
      have hn' : dim / 2 ≤ (n : Int) := by push_cast at hn; omega
      have e2 : wrap64 (dim / 2 * (dim / 2)) = dim / 2 * (dim / 2) :=
        wrap64_eq _ (by omega) hsq
      have n2 : ¬ (dim / 2 * (dim / 2) = 0) := by omega
      rw [mapPosDivisors] at hd
      simp only [e1, e2, h1, n2, dite_false, ite_false, List.mem_cons] at hd
      rcases hd with rfl | hd
      · exact hsq1
      · exact ih (dim / 2) hn' (by omega) d hd

theorem mapPosDivisors_two_pow (k : Nat) (hk : k ≤ 32) :
    (mapPosDivisors (2 ^ k)).length = k := by
  induction k with
  | zero => rw [mapPosDivisors]; simp
  | succ k ih =>
    have hpos : (1 : Int) ≤ 2 ^ k := by exact_mod_cast Nat.two_pow_pos k
    have hle : (2 : Int) ^ k ≤ 2 ^ 31 := by
      exact_mod_cast Nat.pow_le_pow_right (by decide : 0 < 2) (by omega : k ≤ 31)
    have h2 : (2 : Int) ≤ 2 ^ (k + 1) := by rw [pow_succ]; omega
    have e1 : Int.tdiv (2 ^ (k + 1)) 2 = 2 ^ k := by
      rw [tdiv_two _ h2, pow_succ]; omega
    have hsq1 : (1 : Int) ≤ 2 ^ k * 2 ^ k := by nlinarith
    have hsq : (2 : Int) ^ k * 2 ^ k ≤ 2 ^ 62 := by nlinarith
    have e2 : wrap64 (2 ^ k * 2 ^ k) = (2 : Int) ^ k * 2 ^ k :=
      wrap64_eq _ (by omega) (by omega)
    have n1 : ¬ ((2 : Int) ^ (k + 1) ≤ 1) := by omega
    have n2 : ¬ ((2 : Int) ^ k * 2 ^ k = 0) := by omega
    rw [mapPosDivisors]
    simp only [e1, e2, n1, n2, dite_false, ite_false, List.length_cons, ih (by omega)]

/-! ## The bit formula and aligned blocks -/

theorem bitAt_mod (i n m : Nat) (h : n < m) : bitAt (i % 2 ^ m) n = bitAt i n := by
  unfold bitAt
  have e : 2 ^ m = 2 ^ n * 2 ^ (m - n) := by rw [← pow_add]; congr 1; omega
  rw [e, Nat.mod_mul_right_div_self]
  apply Nat.mod_mod_of_dvd
  exact dvd_pow_self 2 (by omega)

theorem four_pow_eq_two_pow (k : Nat) : 4 ^ k = 2 ^ (2 * k) := by
  rw [pow_mul]; rfl

theorem mortonX_mod (k i : Nat) : mortonX k (i % 4 ^ k) = mortonX k i := by
  unfold mortonX
  congr 1
  apply List.map_congr_left
  intro j hj
  rw [List.mem_range] at hj
  rw [four_pow_eq_two_pow, bitAt_mod _ _ _ (by omega)]

theorem mortonY_mod (k i : Nat) : mortonY k (i % 4 ^ k) = mortonY k i := by
  unfold mortonY
  congr 1
  apply List.map_congr_left
  intro j hj
  rw [List.mem_range] at hj
  rw [four_pow_eq_two_pow, bitAt_mod _ _ _ (by omega)]

theorem mortonX_succ (k i : Nat) :
    mortonX (k + 1) i = mortonX k i + bitAt i (2 * k) * 2 ^ k := by
  simp [mortonX, List.range_succ, List.sum_append]

theorem mortonY_succ (k i : Nat) :
    mortonY (k + 1) i = mortonY k i + bitAt i (2 * k + 1) * 2 ^ k := by
  simp [mortonY, List.range_succ, List.sum_append]

theorem zOrder_eq_morton (k i : Nat) (hi : i < 4 ^ k) :
    zOrder k i = (mortonX k i, mortonY k i) := by
  induction k generalizing i with
  | zero => simp [zOrder, mortonX, mortonY]
  | succ k ih =>
    have hpos : 0 < 4 ^ k := Nat.pos_pow_of_pos _ (by decide)
    have hm := ih (i % 4 ^ k) (Nat.mod_lt _ hpos)
    have hq : i / 4 ^ k < 4 := by
      rw [Nat.div_lt_iff_lt_mul hpos]
      rw [pow_succ] at hi; omega
    simp only [zOrder, hm, mortonX_mod, mortonY_mod, mortonX_succ, mortonY_succ]
    have bx : bitAt i (2 * k) = i / 4 ^ k % 2 := by
      unfold bitAt; rw [four_pow_eq_two_pow]
    have by1 : bitAt i (2 * k + 1) = i / 4 ^ k / 2 := by
      unfold bitAt
      rw [pow_succ, ← Nat.div_div_eq_div_mul, ← four_pow_eq_two_pow]
      generalize i / 4 ^ k = q at hq ⊢
      omega
    rw [bx, by1]

theorem mul_four_pow_add_lt (k m j r : Nat) (hj : j < 4 ^ m) (hr : r < 4 ^ k) :
    j * 4 ^ k + r < 4 ^ (k + m) := by
  rw [pow_add]
  have : (j + 1) * 4 ^ k ≤ 4 ^ m * 4 ^ k := Nat.mul_le_mul_right _ hj
  rw [Nat.mul_comm (4 ^ k)]
  calc j * 4 ^ k + r < j * 4 ^ k + 4 ^ k := by omega
    _ = (j + 1) * 4 ^ k := by ring
    _ ≤ 4 ^ m * 4 ^ k := this

/-- The Z-order position of the `r`-th index of the `j`-th aligned block of `4^k`
indices. -/
theorem zOrder_block (k m : Nat) :
    ∀ (j r : Nat), j < 4 ^ m → r < 4 ^ k →
      zOrder (k + m) (j * 4 ^ k + r)
        = (2 ^ k * (zOrder m j).1 + (zOrder k r).1, 2 ^ k * (zOrder m j).2 + (zOrder k r).2) := by
  induction m with
  | zero =>
    intro j r hj hr
    simp at hj
    subst hj
    simp [zOrder]
  | succ m ih =>
    intro j r hj hr
    have hpos : 0 < 4 ^ m := Nat.pos_pow_of_pos _ (by decide)
    have hposk : 0 < 4 ^ k := Nat.pos_pow_of_pos _ (by decide)
    have hlow := mul_four_pow_add_lt k m (j % 4 ^ m) r (Nat.mod_lt _ hpos) hr
    have hsplit : j * 4 ^ k + r = (j % 4 ^ m * 4 ^ k + r) + 4 ^ (k + m) * (j / 4 ^ m) := by
      have := Nat.mod_add_div j (4 ^ m)
      calc j * 4 ^ k + r = (j % 4 ^ m + 4 ^ m * (j / 4 ^ m)) * 4 ^ k + r := by rw [this]
        _ = (j % 4 ^ m * 4 ^ k + r) + 4 ^ (k + m) * (j / 4 ^ m) := by rw [pow_add]; ring
    have emod : (j * 4 ^ k + r) % 4 ^ (k + m) = j % 4 ^ m * 4 ^ k + r := by
      rw [hsplit, Nat.add_mul_mod_self_left, Nat.mod_eq_of_lt hlow]
    have ediv : (j * 4 ^ k + r) / 4 ^ (k + m) = j / 4 ^ m := by
      rw [hsplit, Nat.add_mul_div_left _ _ (Nat.pos_pow_of_pos _ (by decide)),
        Nat.div_eq_of_lt hlow, Nat.zero_add]
    have hstep : zOrder (k + (m + 1)) (j * 4 ^ k + r)
        = ((zOrder (k + m) ((j * 4 ^ k + r) % 4 ^ (k + m))).1
            + ((j * 4 ^ k + r) / 4 ^ (k + m) % 2) * 2 ^ (k + m),
           (zOrder (k + m) ((j * 4 ^ k + r) % 4 ^ (k + m))).2
            + ((j * 4 ^ k + r) / 4 ^ (k + m) / 2) * 2 ^ (k + m)) := rfl
    rw [hstep, emod, ediv, ih (j % 4 ^ m) r (Nat.mod_lt _ hpos) hr]
    simp only [zOrder, pow_add]
    apply Prod.ext <;> simp only <;> ring

theorem zOrder_zero (k : Nat) : zOrder k 0 = (0, 0) := by
  induction k with
  | zero => rfl
  | succ k ih => simp [zOrder, ih]

/-! ## Pixels of no address -/

theorem colourOf_cases (info : VPC) (ip : Nat) :
    colourOf info ip = unallocated ∨ colourOf info ip = allocated ∨
      colourOf info ip = reserved ∨ colourOf info ip = inUse := by
  unfold colourOf
  split_ifs <;> simp

/-- The image after the first `n` calls of the callback of `generateImage`: a pixel that
is the position of none of the `n` indices still has the value that `image.NewRGBA` gave
it. -/
theorem drawIP_calls_untouched (info : VPC) (k : Nat) (hk : k ≤ 31) (n : Nat)
    (hn : n ≤ 4 ^ k) :
    ∃ img, runCalls (drawIP info (2 ^ k)) (callsFrom info.Cidr 0 n) (NewRGBA (2 ^ k)) = some img ∧
      img.side = 2 ^ k ∧
      ∀ x y : Int, (∀ j : Nat, j < n →
          ¬ (x = ((zOrder k j).1 : Int) ∧ y = ((zOrder k j).2 : Int))) →
        img.pix x y = ⟨0, 0, 0, 0⟩ := by
  induction n with
  | zero => exact ⟨NewRGBA (2 ^ k), rfl, rfl, fun _ _ _ => rfl⟩
  | succ n ih =>
    obtain ⟨img, hrun, hside, hpix⟩ := ih (by omega)
    have hn4 : n < 4 ^ k := by omega
    obtain ⟨b1, b2⟩ := zOrder_lt k n hn4
    have h2 : ((2 : Int) ^ k) = ((2 ^ k : Nat) : Int) := by push_cast; rfl
    obtain ⟨out, hout, oside, _, orest⟩ :=
      drawIP_inside info (2 ^ k) img (n : Int) (info.Cidr.ip + n) _ _
        (mapPos_eq_zOrder k hk n hn4) (by omega) (by rw [hside, h2]; exact_mod_cast b1)
        (by omega) (by rw [hside, h2]; exact_mod_cast b2)
    refine ⟨out, ?_, by rw [oside, hside], ?_⟩
    · rw [callsFrom_succ, runCalls_append, hrun]
      simp only [runCalls, hout]
    · intro x y hxy
      rw [orest x y (hxy n (by omega))]
      exact hpix x y (fun j hj => hxy j (by omega))

/-- The side `2 ^ ((h + 1) / 2)` is the smallest power of two whose square holds `2 ^ h`
addresses. -/
theorem smallest_side (h : Nat) :
    2 ^ h ≤ 2 ^ ((h + 1) / 2) * 2 ^ ((h + 1) / 2) ∧
      ∀ m : Nat, 2 ^ h ≤ 2 ^ m * 2 ^ m → (h + 1) / 2 ≤ m := by
  constructor
  · rw [← pow_add]
    exact Nat.pow_le_pow_right (by decide) (by omega)
  · intro m hm
    rw [← pow_add] at hm
    have := (Nat.pow_le_pow_iff_right (by decide : 1 < 2)).1 hm
    omega

/-! ## Counting reserved and allocated addresses -/

theorem reserved_in_block_perm (s : Subnet) (hs : s.Cidr.Valid) (hp : s.Cidr.prefixLen ≤ 29) :
    ((blockAddresses s.Cidr).filter (fun ip => s.IPReserved ip)).Perm (reservedList s) := by
  rw [List.perm_ext_iff_of_nodup ((blockAddresses_nodup _).filter _) (reservedList_nodup s hp)]
  intro a
  simp only [List.mem_filter, mem_blockAddresses, IPReserved_iff_mem s a hs hp]
  constructor
  · exact fun h => h.2
  · exact fun h => ⟨reservedList_in_block s hp a h, h⟩

theorem sum_map_block_length (subs : List Subnet) :
    (subs.map (List.length ∘ fun s : Subnet => blockAddresses s.Cidr)).sum
      = (subs.map (fun s => 2 ^ (32 - s.Cidr.prefixLen))).sum := by
  induction subs with
  | nil => rfl
  | cons s rest ih =>
    simp only [List.map_cons, List.sum_cons, ih, Function.comp, blockAddresses_length]

theorem allocated_in_block_perm (vpc : VPC) (hv : vpc.Cidr.Valid)
    (hsub : ∀ s ∈ vpc.Subnets, s.Cidr.Valid ∧ vpc.Cidr.ip ≤ s.Cidr.ip ∧
      s.Cidr.ip + 2 ^ (32 - s.Cidr.prefixLen) ≤ vpc.Cidr.ip + 2 ^ (32 - vpc.Cidr.prefixLen))
    (hapart : vpc.Subnets.Pairwise blocksApart) :
    ((blockAddresses vpc.Cidr).filter (fun ip => vpc.IPAllocated ip)).Perm
      (vpc.Subnets.flatMap (fun s => blockAddresses s.Cidr)) := by
  have hvalid : ∀ s ∈ vpc.Subnets, s.Cidr.Valid := fun s hs => (hsub s hs).1
  have hb := vpc.Cidr.block_le hv
  unfold Cidr.hostBits at hb
  rw [List.perm_ext_iff_of_nodup ((blockAddresses_nodup _).filter _)]
  · intro a
    simp only [List.mem_filter, List.mem_flatMap, mem_blockAddresses]
    constructor
    · rintro ⟨hin, hal⟩
      obtain ⟨s, hs, hc, _⟩ := firstMatch_true _ _ _ hal
      exact ⟨s, hs, (Contains_iff_interval _ _ (hvalid s hs) (by omega)).1 hc⟩
    · rintro ⟨s, hs, hin⟩
      obtain ⟨hsv, hlo, hhi⟩ := hsub s hs
      refine ⟨⟨by omega, by omega⟩, ?_⟩
      rw [VPC.IPAllocated, firstMatch_of_apart _ a (by omega) _ hvalid hapart s hs hin]
      rfl
  · rw [List.nodup_flatMap]
    refine ⟨fun s _ => blockAddresses_nodup _, ?_⟩
    apply hapart.imp
    intro s t hst
    show List.Disjoint (blockAddresses s.Cidr) (blockAddresses t.Cidr)
    intro a has hat
    rw [mem_blockAddresses] at has hat
    unfold blocksApart at hst
    omega

/-! ## Blocks at the top of the address space -/

/-- The valid blocks whose network address `b` has `b + 3 ≥ 2^32`. -/
theorem top_blocks (c : Cidr) (hc : c.Valid) :
    ¬ (c.ip + 3 < 2 ^ 32) ↔
      ((c.ip = ipv4 255 255 255 253 ∧ c.prefixLen = 32) ∨
       (c.ip = ipv4 255 255 255 254 ∧ (c.prefixLen = 31 ∨ c.prefixLen = 32)) ∨
       (c.ip = ipv4 255 255 255 255 ∧ c.prefixLen = 32)) := by
  obtain ⟨hp, hlt, hal⟩ := hc
  have e253 : ipv4 255 255 255 253 = 4294967293 := by decide
  have e254 : ipv4 255 255 255 254 = 4294967294 := by decide
  have e255 : ipv4 255 255 255 255 = 4294967295 := by decide
  rw [e253, e254, e255]
  unfold Cidr.hostBits at hal
  constructor
  · intro h
    have hb : 4294967293 ≤ c.ip := by omega
    rcases Nat.lt_or_ge (32 - c.prefixLen) 2 with h2 | h2
    · rcases Nat.lt_or_ge (32 - c.prefixLen) 1 with h1 | h1
      · have hp32 : c.prefixLen = 32 := by omega
        omega
      · have hh : 32 - c.prefixLen = 1 := by omega
        rw [hh] at hal
        have hp31 : c.prefixLen = 31 := by omega
        omega
    · exfalso
      have hd : 2 ^ 2 ∣ 2 ^ (32 - c.prefixLen) := pow_dvd_pow 2 h2
      have hd2 : 2 ^ 2 ∣ c.ip := dvd_trans hd (Nat.dvd_of_mod_eq_zero hal)
      omega
  · intro h
    omega

/-! ## Claims on the classification methods -/

/-- C2. `VPC.IPAllocated(ip)` is true exactly when at least one subnet of the network has
a block that contains `ip`.  For the network `10.0.0.0/16` with the single subnet
`10.0.1.0/24` the answer is true at `10.0.1.5` and false at `10.0.2.5`. -/
theorem C2_IPAllocated_iff_some_subnet_contains :
    (∀ (v : VPC) (ip : Nat),
      v.IPAllocated ip = true ↔ ∃ s ∈ v.Subnets, s.Cidr.Contains ip = true) ∧
    (⟨⟨ipv4 10 0 0 0, 16⟩, [⟨⟨ipv4 10 0 1 0, 24⟩, []⟩]⟩ : VPC).IPAllocated (ipv4 10 0 1 5)
      = true ∧
    (⟨⟨ipv4 10 0 0 0, 16⟩, [⟨⟨ipv4 10 0 1 0, 24⟩, []⟩]⟩ : VPC).IPAllocated (ipv4 10 0 2 5)
      = false := by
  refine ⟨?_, by decide, by decide⟩
  intro v ip
  constructor
  · intro h
    by_contra hno
    have hall : ∀ s ∈ v.Subnets, s.Cidr.Contains ip = false := by
      intro s hs
      by_contra hc
      exact hno ⟨s, hs, by simpa using hc⟩
    rw [VPC.IPAllocated, firstMatch_none _ _ _ hall] at h
    cases h
  · intro h
    obtain ⟨pre, s, post, he, hp, hc⟩ := firstMatch_split ip v.Subnets h
    rw [VPC.IPAllocated, he, firstMatch_first _ _ _ _ _ hp hc]
    rfl

/-- C3, as stated, fails: for the subnet `255.255.255.255/32` the method answers true at
`0.0.0.0`, which is none of `b`, `b+1`, `b+2`, `b+3` and the highest address of the block
(`cidr.Inc` wraps around after `255.255.255.255`). -/
theorem C3_counterexample_wrap_around :
    (⟨ipv4 255 255 255 255, 32⟩ : Cidr).Valid ∧
    ¬ ((⟨⟨ipv4 255 255 255 255, 32⟩, []⟩ : Subnet).IPReserved (ipv4 0 0 0 0) = true ↔
        (ipv4 0 0 0 0 = ipv4 255 255 255 255 ∨ ipv4 0 0 0 0 = ipv4 255 255 255 255 + 1 ∨
          ipv4 0 0 0 0 = ipv4 255 255 255 255 + 2 ∨ ipv4 0 0 0 0 = ipv4 255 255 255 255 + 3 ∨
          ipv4 0 0 0 0 = ipv4 255 255 255 255 + 2 ^ (32 - 32) - 1)) := by
  decide

/-- C3 (amended). For a subnet with network address `b` and prefix length `p`,
`Subnet.IPReserved(ip)` is true exactly when `ip` is `b`, one of the three addresses that
follow it, `(b+1) mod 2^32`, `(b+2) mod 2^32`, `(b+3) mod 2^32`, or the highest address
`b + 2^(32-p) - 1` of the block.  Whenever `b + 3 < 2^32` these are `b`, `b+1`, `b+2`,
`b+3` and the highest address; `b + 3 < 2^32` holds for every subnet with prefix length at
most 30, and it fails exactly for the blocks `255.255.255.253/32`, `255.255.255.254/31`,
`255.255.255.254/32` and `255.255.255.255/32`. -/
theorem C3_IPReserved_iff (s : Subnet) (ip : Nat) (hs : s.Cidr.Valid) :
    (s.IPReserved ip = true ↔
      (ip = s.Cidr.ip ∨ ip = (s.Cidr.ip + 1) % 2 ^ 32 ∨ ip = (s.Cidr.ip + 2) % 2 ^ 32 ∨
        ip = (s.Cidr.ip + 3) % 2 ^ 32 ∨ ip = s.Cidr.ip + 2 ^ (32 - s.Cidr.prefixLen) - 1)) ∧
    (s.Cidr.ip + 3 < 2 ^ 32 →
      (s.IPReserved ip = true ↔
        (ip = s.Cidr.ip ∨ ip = s.Cidr.ip + 1 ∨ ip = s.Cidr.ip + 2 ∨ ip = s.Cidr.ip + 3 ∨
          ip = s.Cidr.ip + 2 ^ (32 - s.Cidr.prefixLen) - 1))) ∧
    (s.Cidr.prefixLen ≤ 30 → s.Cidr.ip + 3 < 2 ^ 32) ∧
    (¬ (s.Cidr.ip + 3 < 2 ^ 32) ↔
      ((s.Cidr.ip = ipv4 255 255 255 253 ∧ s.Cidr.prefixLen = 32) ∨
       (s.Cidr.ip = ipv4 255 255 255 254 ∧ (s.Cidr.prefixLen = 31 ∨ s.Cidr.prefixLen = 32)) ∨
       (s.Cidr.ip = ipv4 255 255 255 255 ∧ s.Cidr.prefixLen = 32))) := by
  have key := IPReserved_iff_mod s ip hs
  refine ⟨key, fun h3 => ?_, fun h30 => ?_, top_blocks s.Cidr hs⟩
  · rw [key, Nat.mod_eq_of_lt (by omega : s.Cidr.ip + 1 < 2 ^ 32),
      Nat.mod_eq_of_lt (by omega : s.Cidr.ip + 2 < 2 ^ 32), Nat.mod_eq_of_lt h3]
  · by_contra hcon
    have := (top_blocks s.Cidr hs).1 hcon
    omega

/-- The reserved addresses of the subnet `10.0.1.0/24`: the first four addresses and the
last one, and neither `10.0.1.4` nor `10.0.1.254`; its prefix length 24 is at most 30, so
no address wraps around.  The four blocks at the top of the address space are valid
blocks. -/
theorem C3_IPReserved_iff_witness :
    (⟨ipv4 10 0 1 0, 24⟩ : Cidr).Valid ∧
    ((⟨⟨ipv4 10 0 1 0, 24⟩, []⟩ : Subnet).IPReserved (ipv4 10 0 1 255) = true ↔
      (ipv4 10 0 1 255 = ipv4 10 0 1 0 ∨ ipv4 10 0 1 255 = ipv4 10 0 1 0 + 1 ∨
        ipv4 10 0 1 255 = ipv4 10 0 1 0 + 2 ∨ ipv4 10 0 1 255 = ipv4 10 0 1 0 + 3 ∨
        ipv4 10 0 1 255 = ipv4 10 0 1 0 + 2 ^ (32 - 24) - 1)) ∧
    ipv4 10 0 1 0 + 3 < 2 ^ 32 ∧
    (⟨⟨ipv4 10 0 1 0, 24⟩, []⟩ : Subnet).IPReserved (ipv4 10 0 1 0) = true ∧
    (⟨⟨ipv4 10 0 1 0, 24⟩, []⟩ : Subnet).IPReserved (ipv4 10 0 1 1) = true ∧
    (⟨⟨ipv4 10 0 1 0, 24⟩, []⟩ : Subnet).IPReserved (ipv4 10 0 1 2) = true ∧
    (⟨⟨ipv4 10 0 1 0, 24⟩, []⟩ : Subnet).IPReserved (ipv4 10 0 1 3) = true ∧
    (⟨⟨ipv4 10 0 1 0, 24⟩, []⟩ : Subnet).IPReserved (ipv4 10 0 1 255) = true ∧
    (⟨⟨ipv4 10 0 1 0, 24⟩, []⟩ : Subnet).IPReserved (ipv4 10 0 1 4) = false ∧
    (⟨⟨ipv4 10 0 1 0, 24⟩, []⟩ : Subnet).IPReserved (ipv4 10 0 1 254) = false ∧
    (⟨ipv4 255 255 255 253, 32⟩ : Cidr).Valid ∧ (⟨ipv4 255 255 255 254, 31⟩ : Cidr).Valid ∧
    (⟨ipv4 255 255 255 254, 32⟩ : Cidr).Valid ∧ (⟨ipv4 255 255 255 255, 32⟩ : Cidr).Valid :=
  ⟨by decide,
    (C3_IPReserved_iff ⟨⟨ipv4 10 0 1 0, 24⟩, []⟩ (ipv4 10 0 1 255) (by decide)).2.1 (by decide),
    (C3_IPReserved_iff ⟨⟨ipv4 10 0 1 0, 24⟩, []⟩ (ipv4 10 0 1 255) (by decide)).2.2.1
      (by decide),
    by decide, by decide, by decide, by decide, by decide, by decide, by decide,
    by decide, by decide, by decide, by decide⟩

/-- C5. First-match delegation: when `s` is the first subnet in declared order whose
block contains `ip`, the network answers `IPReserved` and `IPInUse` (and `IPAllocated`)
as `s` does, whatever the subnets after `s` are. -/
theorem C5_first_match_delegation (v : VPC) (ip : Nat) (pre : List Subnet) (s : Subnet)
    (post : List Subnet) (hsub : v.Subnets = pre ++ s :: post)
    (hpre : ∀ t ∈ pre, t.Cidr.Contains ip = false) (hs : s.Cidr.Contains ip = true) :
    v.IPReserved ip = s.IPReserved ip ∧ v.IPInUse ip = s.IPInUse ip ∧
      v.IPAllocated ip = s.IPAllocated ip := by
  simp only [VPC.IPReserved, VPC.IPInUse, VPC.IPAllocated, hsub,
    firstMatch_first _ ip pre s post hpre hs, and_self]

/-- Two subnets `10.0.0.0/24` and `10.0.0.0/25` both contain `10.0.0.9` and only the
second one lists it as in use: the network answers as the first, `IPInUse = false`. -/
theorem C5_first_match_delegation_witness :
    (⟨⟨ipv4 10 0 0 0, 25⟩, [ipv4 10 0 0 9]⟩ : Subnet).Cidr.Contains (ipv4 10 0 0 9) = true ∧
    (⟨⟨ipv4 10 0 0 0, 25⟩, [ipv4 10 0 0 9]⟩ : Subnet).IPInUse (ipv4 10 0 0 9) = true ∧
    (⟨⟨ipv4 10 0 0 0, 16⟩,
        [⟨⟨ipv4 10 0 0 0, 24⟩, []⟩, ⟨⟨ipv4 10 0 0 0, 25⟩, [ipv4 10 0 0 9]⟩]⟩ : VPC).IPInUse
      (ipv4 10 0 0 9) = (⟨⟨ipv4 10 0 0 0, 24⟩, []⟩ : Subnet).IPInUse (ipv4 10 0 0 9) ∧
    (⟨⟨ipv4 10 0 0 0, 16⟩,
        [⟨⟨ipv4 10 0 0 0, 24⟩, []⟩, ⟨⟨ipv4 10 0 0 0, 25⟩, [ipv4 10 0 0 9]⟩]⟩ : VPC).IPInUse
      (ipv4 10 0 0 9) = false :=
  ⟨by decide, by decide,
    (C5_first_match_delegation
      ⟨⟨ipv4 10 0 0 0, 16⟩, [⟨⟨ipv4 10 0 0 0, 24⟩, []⟩, ⟨⟨ipv4 10 0 0 0, 25⟩, [ipv4 10 0 0 9]⟩]⟩
      (ipv4 10 0 0 9) [] ⟨⟨ipv4 10 0 0 0, 24⟩, []⟩ [⟨⟨ipv4 10 0 0 0, 25⟩, [ipv4 10 0 0 9]⟩]
      rfl (by simp) (by decide)).2.1,
    by decide⟩

/-- C6. Unallocated by omission: an address contained in the block of no subnet gets
`false` from `VPC.IPAllocated`, `VPC.IPReserved` and `VPC.IPInUse`, whatever the in-use
lists and reserved addresses of the subnets are; equivalently `VPC.IPInUse(ip)` or
`VPC.IPReserved(ip)` implies `VPC.IPAllocated(ip)`. -/
theorem C6_unallocated_by_omission (v : VPC) (ip : Nat) :
    ((∀ s ∈ v.Subnets, s.Cidr.Contains ip = false) →
      v.IPAllocated ip = false ∧ v.IPReserved ip = false ∧ v.IPInUse ip = false) ∧
    (v.IPInUse ip = true ∨ v.IPReserved ip = true → v.IPAllocated ip = true) := by
  have hnone : (∀ s ∈ v.Subnets, s.Cidr.Contains ip = false) →
      v.IPAllocated ip = false ∧ v.IPReserved ip = false ∧ v.IPInUse ip = false := by
    intro h
    exact ⟨firstMatch_none _ _ _ h, firstMatch_none _ _ _ h, firstMatch_none _ _ _ h⟩
  refine ⟨hnone, fun h => ?_⟩
  by_contra hA
  have hex : ∃ s ∈ v.Subnets, s.Cidr.Contains ip = true := by
    by_contra hno
    have hall : ∀ s ∈ v.Subnets, s.Cidr.Contains ip = false := by
      intro s hs
      by_contra hc
      exact hno ⟨s, hs, by simpa using hc⟩
    obtain ⟨_, h2, h3⟩ := hnone hall
    rcases h with h | h
    · rw [h3] at h; cases h
    · rw [h2] at h; cases h
  obtain ⟨pre, s, post, he, hp, hc⟩ := firstMatch_split ip v.Subnets hex
  apply hA
  rw [VPC.IPAllocated, he, firstMatch_first _ _ _ _ _ hp hc]
  rfl

/-- The subnet `10.0.1.0/24` lists `10.0.2.5` as in use and the subnet `10.0.3.0/32`
computes `10.0.3.1` as a reserved address; neither address lies in a block, and the
network answers false to all three questions. -/
theorem C6_unallocated_by_omission_witness :
    (⟨⟨ipv4 10 0 1 0, 24⟩, [ipv4 10 0 2 5]⟩ : Subnet).IPInUse (ipv4 10 0 2 5) = true ∧
    ((⟨⟨ipv4 10 0 0 0, 16⟩,
        [⟨⟨ipv4 10 0 1 0, 24⟩, [ipv4 10 0 2 5]⟩, ⟨⟨ipv4 10 0 3 0, 32⟩, []⟩]⟩ : VPC).IPAllocated
        (ipv4 10 0 2 5) = false ∧
      (⟨⟨ipv4 10 0 0 0, 16⟩,
        [⟨⟨ipv4 10 0 1 0, 24⟩, [ipv4 10 0 2 5]⟩, ⟨⟨ipv4 10 0 3 0, 32⟩, []⟩]⟩ : VPC).IPReserved
        (ipv4 10 0 2 5) = false ∧
      (⟨⟨ipv4 10 0 0 0, 16⟩,
        [⟨⟨ipv4 10 0 1 0, 24⟩, [ipv4 10 0 2 5]⟩, ⟨⟨ipv4 10 0 3 0, 32⟩, []⟩]⟩ : VPC).IPInUse
        (ipv4 10 0 2 5) = false) ∧
    (⟨⟨ipv4 10 0 3 0, 32⟩, []⟩ : Subnet).IPReserved (ipv4 10 0 3 1) = true ∧
    (⟨⟨ipv4 10 0 0 0, 16⟩,
        [⟨⟨ipv4 10 0 1 0, 24⟩, [ipv4 10 0 2 5]⟩, ⟨⟨ipv4 10 0 3 0, 32⟩, []⟩]⟩ : VPC).IPReserved
        (ipv4 10 0 3 1) = false :=
  ⟨by decide,
    (C6_unallocated_by_omission
      ⟨⟨ipv4 10 0 0 0, 16⟩,
        [⟨⟨ipv4 10 0 1 0, 24⟩, [ipv4 10 0 2 5]⟩, ⟨⟨ipv4 10 0 3 0, 32⟩, []⟩]⟩
      (ipv4 10 0 2 5)).1 (by decide),
    by decide, by decide⟩

/-! ## Claims on the placement -/

/-- C1, as stated, fails at `k = 32`: with `dim = 2 ^ 32` the product `subBlockSize * 3`
overflows the 64-bit `int`, every index takes the first branch, and the two different
indices `0` and `2 ^ 62` of `[0, dim * dim)` give the same pixel. -/
theorem C1_counterexample_dim_two_pow_32 :
    (0 : Int) ≠ 2 ^ 62 ∧ (0 : Int) < 2 ^ 32 * 2 ^ 32 ∧ (2 : Int) ^ 62 < 2 ^ 32 * 2 ^ 32 ∧
    mapPos 0 (2 ^ 32) = some (2 ^ 31, 2 ^ 31) ∧
    mapPos (2 ^ 62) (2 ^ 32) = some (2 ^ 31, 2 ^ 31) := by
  have h0 : mapPos 0 (2 ^ 31) = some (0, 0) := by
    have h := mapPos_eq_zOrder 31 (by decide) 0 (by decide)
    have hz : zOrder 31 0 = (0, 0) := by decide
    rw [hz] at h
    exact_mod_cast h
  have e1 : Int.tdiv (2 ^ 32) 2 = 2 ^ 31 := by decide
  have e2 : wrap64 (2 ^ 31 * 2 ^ 31) = 2 ^ 62 := by decide
  have e3 : Int.tmod 0 (2 ^ 62) = 0 := by decide
  have e4 : Int.tmod (2 ^ 62) (2 ^ 62) = 0 := by decide
  have e5 : wrap64 (2 ^ 62 * 3) = - 2 ^ 62 := by decide
  have e6 : wrap64 (0 + 2 ^ 31) = 2 ^ 31 := by decide
  refine ⟨by decide, by decide, by decide, ?_, ?_⟩
  · rw [mapPos]
    simp only [e1, e2, e3, e5, h0, e6]
    decide
  · rw [mapPos]
    simp only [e1, e2, e4, e5, h0, e6]
    decide

/-- C1 (amended). For every `k ≤ 31` and `dim = 2 ^ k`, the map `i ↦ mapPos(i, dim)` on
`0 ≤ i < dim * dim` is a bijection onto the grid `[0, dim) × [0, dim)`: every index has
a result `(x, y)` with `0 ≤ x < dim` and `0 ≤ y < dim`, two different indices never
give the same result, and every pixel of the grid is the result of some index. -/
theorem C1_mapPos_bijection (k : Nat) (hk : k ≤ 31) :
    (∀ i : Int, 0 ≤ i → i < 2 ^ k * 2 ^ k →
      ∃ x y : Int, mapPos i (2 ^ k) = some (x, y) ∧ 0 ≤ x ∧ x < 2 ^ k ∧ 0 ≤ y ∧ y < 2 ^ k) ∧
    (∀ i j : Int, 0 ≤ i → i < 2 ^ k * 2 ^ k → 0 ≤ j → j < 2 ^ k * 2 ^ k →
      mapPos i (2 ^ k) = mapPos j (2 ^ k) → i = j) ∧
    (∀ x y : Int, 0 ≤ x → x < 2 ^ k → 0 ≤ y → y < 2 ^ k →
      ∃ i : Int, 0 ≤ i ∧ i < 2 ^ k * 2 ^ k ∧ mapPos i (2 ^ k) = some (x, y)) := by
  have hdd : ((2 : Int) ^ k) * 2 ^ k = ((4 ^ k : Nat) : Int) := by
    rw [four_pow_eq k]; push_cast; ring
  have h2 : ((2 : Int) ^ k) = ((2 ^ k : Nat) : Int) := by push_cast; rfl
  refine ⟨?_, ?_, ?_⟩
  · intro i hi0 hi
    obtain ⟨n, rfl⟩ := Int.eq_ofNat_of_zero_le hi0
    have hn : n < 4 ^ k := by rw [hdd] at hi; exact_mod_cast hi
    obtain ⟨b1, b2⟩ := zOrder_lt k n hn
    refine ⟨_, _, mapPos_eq_zOrder k hk n hn, by omega, ?_, by omega, ?_⟩
    · rw [h2]; exact_mod_cast b1
    · rw [h2]; exact_mod_cast b2
  · intro i j hi0 hi hj0 hj heq
    obtain ⟨n, rfl⟩ := Int.eq_ofNat_of_zero_le hi0
    obtain ⟨m, rfl⟩ := Int.eq_ofNat_of_zero_le hj0
    have hn : n < 4 ^ k := by rw [hdd] at hi; exact_mod_cast hi
    have hm : m < 4 ^ k := by rw [hdd] at hj; exact_mod_cast hj
    rw [mapPos_eq_zOrder k hk n hn, mapPos_eq_zOrder k hk m hm] at heq
    simp only [Option.some.injEq, Prod.mk.injEq, Nat.cast_inj] at heq
    have e := zIndex_zOrder k n hn
    rw [heq.1, heq.2, zIndex_zOrder k m hm] at e
    rw [e]
  · intro x y hx0 hx hy0 hy
    obtain ⟨a, rfl⟩ := Int.eq_ofNat_of_zero_le hx0
    obtain ⟨b, rfl⟩ := Int.eq_ofNat_of_zero_le hy0
    have ha : a < 2 ^ k := by rw [h2] at hx; exact_mod_cast hx
    have hb : b < 2 ^ k := by rw [h2] at hy; exact_mod_cast hy
    have hl := zIndex_lt k a b ha hb
    refine ⟨(zIndex k a b : Nat), by omega, ?_, ?_⟩
    · rw [hdd]; exact_mod_cast hl
    · rw [mapPos_eq_zOrder k hk _ hl, zOrder_zIndex k a b ha hb]

/-- On the canvas of side `32 = 2 ^ 5` the index `681` has a result inside the grid. -/
theorem C1_mapPos_bijection_witness :
    5 ≤ 31 ∧ ∃ x y : Int, mapPos 681 (2 ^ 5) = some (x, y) ∧ 0 ≤ x ∧ x < 2 ^ 5 ∧ 0 ≤ y ∧
      y < 2 ^ 5 :=
  ⟨by decide, (C1_mapPos_bijection 5 (by decide)).1 681 (by decide) (by decide)⟩

/-- C10, as stated, fails: `mapPos(1, 4)` is `(1, 0)`, not the quadrant anchor `(2, 0)`;
likewise `mapPos(2, 4) = (0, 1)` and `mapPos(3, 4) = (1, 1)`. -/
theorem C10_counterexample_index_one :
    mapPos 1 4 = some (1, 0) ∧ mapPos 1 4 ≠ some (2, 0) ∧
    mapPos 2 4 = some (0, 1) ∧ mapPos 2 4 ≠ some (0, 2) ∧
    mapPos 3 4 = some (1, 1) ∧ mapPos 3 4 ≠ some (2, 2) := by
  have h1 : mapPos 1 4 = some (1, 0) := by
    unfold mapPos; simp +decide
    unfold mapPos; simp +decide
    unfold mapPos; simp +decide
  have h2 : mapPos 2 4 = some (0, 1) := by
    unfold mapPos; simp +decide
    unfold mapPos; simp +decide
    unfold mapPos; simp +decide
  have h3 : mapPos 3 4 = some (1, 1) := by
    unfold mapPos; simp +decide
    unfold mapPos; simp +decide
    unfold mapPos; simp +decide
  refine ⟨h1, ?_, h2, ?_, h3, ?_⟩
  · rw [h1]; decide
  · rw [h2]; decide
  · rw [h3]; decide

/-- C10 (amended). For `dim = 4` the four quadrant anchors `(0,0)`, `(2,0)`, `(0,2)`,
`(2,2)` are the results of the indices `0`, `4`, `8`, `12`, the multiples of
`subBlockSize = 4`; the indices `0`, `1`, `2`, `3` fill the top-left quadrant:
`(0,0)`, `(1,0)`, `(0,1)`, `(1,1)`. -/
theorem C10_quadrant_anchors :
    mapPos 0 4 = some (0, 0) ∧ mapPos 4 4 = some (2, 0) ∧ mapPos 8 4 = some (0, 2) ∧
    mapPos 12 4 = some (2, 2) ∧
    mapPos 1 4 = some (1, 0) ∧ mapPos 2 4 = some (0, 1) ∧ mapPos 3 4 = some (1, 1) := by
  refine ⟨?_, ?_, ?_, ?_, ?_, ?_, ?_⟩ <;>
  · unfold mapPos; simp +decide
    unfold mapPos; simp +decide
    unfold mapPos; simp +decide

/-! ## Claims on enumeration and rendering -/

/-- C7, the failing input. On the block `0.0.0.0/0` the loop of `ForEachIP` never ends:
after `255.255.255.255` the function `cidr.Inc` wraps around to `0.0.0.0`, which the
block contains, so with the recording callback every amount of fuel runs out. -/
theorem C7_ForEachIP_never_ends_on_slash_zero (subnets : List Subnet) (fuel : Nat) :
    (⟨0, 0⟩ : Cidr).Valid ∧
    (⟨⟨0, 0⟩, subnets⟩ : VPC).ForEachIP fuel recordCall [] = Outcome.outOfFuel ∧
    (⟨⟨0, 0⟩, []⟩ : Subnet).ForEachIP fuel recordCall [] = Outcome.outOfFuel := by
  have key : ∀ (fuel : Nat) (ip : Nat) (i : Int) (st : List (Int × Nat)),
      forEachIPLoop ⟨0, 0⟩ recordCall fuel ip i st = Outcome.outOfFuel := by
    intro fuel
    induction fuel with
    | zero => intro ip i st; rfl
    | succ f ih =>
      intro ip i st
      simp only [forEachIPLoop, Contains_slash_zero, if_true, recordCall]
      exact ih _ _ _
  exact ⟨by decide, key _ _ _ _, key _ _ _ _⟩

/-- C4. For a network rendered by `generateImage` on a canvas of side `dim = 2^k` that
has room for its block, the finished grid holds at the pixel `mapPos(i, dim)` of the
address with enumeration index `i` the colour chosen in strict priority order: in-use if
`IPInUse`, otherwise reserved if `IPReserved`, otherwise allocated if `IPAllocated`,
otherwise unallocated; different indices have different pixels, so no later address
overwrites an earlier one.  The rendering finishes whenever the prefix length of the block
is at least 1. -/
theorem C4_generateImage_priority (info : VPC) (k : Nat) (hv : info.Cidr.Valid)
    (hk : k ≤ 31) (hfit : 2 ^ (32 - info.Cidr.prefixLen) ≤ 2 ^ k * 2 ^ k) :
    (∀ (fuel : Nat) (img : Image), generateImage fuel (2 ^ k) info = Outcome.finished img →
      ∀ i : Nat, i < 2 ^ (32 - info.Cidr.prefixLen) →
        ∃ x y : Int, mapPos (i : Int) (2 ^ k) = some (x, y) ∧
          img.pix x y =
            (if info.IPInUse (info.Cidr.ip + i) then inUse
             else if info.IPReserved (info.Cidr.ip + i) then reserved
             else if info.IPAllocated (info.Cidr.ip + i) then allocated
             else unallocated) ∧
          ∀ j : Nat, j < 2 ^ (32 - info.Cidr.prefixLen) → j ≠ i →
            mapPos (j : Int) (2 ^ k) ≠ some (x, y)) ∧
    (1 ≤ info.Cidr.prefixLen →
      ∃ img : Image,
        generateImage (2 ^ (32 - info.Cidr.prefixLen) + 1) (2 ^ k) info
          = Outcome.finished img) := by
  have hfit4 : 2 ^ info.Cidr.hostBits ≤ 4 ^ k := by
    rw [four_pow_eq]; exact hfit
  obtain ⟨final, hfinal, _, hpix⟩ := drawIP_calls info k hk (2 ^ info.Cidr.hostBits) hfit4
  constructor
  · intro fuel img hfin i hi
    have hi' : i < 2 ^ info.Cidr.hostBits := hi
    by_cases hp : 1 ≤ info.Cidr.prefixLen
    · have hbig := forEachIPLoop_mono info.Cidr (drawIP info (2 ^ k)) fuel info.Cidr.ip 0
        (NewRGBA (2 ^ k)) img (2 ^ info.Cidr.hostBits + 1) (by rw [← generateImage_eq]; exact hfin)
      rw [← generateImage_eq, generateImage_run info k hv hp _ (by omega), hfinal] at hbig
      have himg : final = img := by
        simpa [Outcome.ofOption] using hbig
      subst himg
      refine ⟨_, _, mapPos_eq_zOrder k hk i (by omega), hpix i hi', ?_⟩
      intro j hj hji hcon
      rw [mapPos_eq_zOrder k hk j (by have : j < 2 ^ info.Cidr.hostBits := hj; omega)] at hcon
      apply hji
      apply zOrder_injective k j i (by have : j < 2 ^ info.Cidr.hostBits := hj; omega) (by omega)
      simp only [Option.some.injEq, Prod.mk.injEq, Nat.cast_inj] at hcon
      exact Prod.ext hcon.1 hcon.2
    · exfalso
      have hp0 : info.Cidr.prefixLen = 0 := by omega
      have hc : info.Cidr = ⟨info.Cidr.ip, 0⟩ := by
        cases hci : info.Cidr with
        | mk a p => rw [hci] at hp0; simp at hp0; rw [hp0]
      rw [generateImage_eq, hc] at hfin
      exact forEachIPLoop_slash_zero _ _ _ _ _ _ _ hfin
  · intro hp
    refine ⟨final, ?_⟩
    have h := generateImage_run info k hv hp (2 ^ info.Cidr.hostBits + 1) (by omega)
    rw [hfinal] at h
    exact h

/-- The network `10.0.0.0/30` with the subnet `10.0.0.0/30` and in-use address `10.0.0.1`
on a canvas of side 2: the rendering finishes, and the pixel `(1, 0)` of the address
`10.0.0.1`, which is both in use and reserved, holds the in-use colour. -/
theorem C4_generateImage_priority_witness :
    (⟨ipv4 10 0 0 0, 30⟩ : Cidr).Valid ∧ 1 ≤ 31 ∧ 2 ^ (32 - 30) ≤ 2 ^ 1 * 2 ^ 1 ∧
    (⟨⟨ipv4 10 0 0 0, 30⟩, [ipv4 10 0 0 1]⟩ : Subnet).IPReserved (ipv4 10 0 0 1) = true ∧
    ∃ img : Image,
      generateImage (2 ^ (32 - 30) + 1) (2 ^ 1)
        ⟨⟨ipv4 10 0 0 0, 30⟩, [⟨⟨ipv4 10 0 0 0, 30⟩, [ipv4 10 0 0 1]⟩]⟩ = Outcome.finished img ∧
      img.pix 1 0 = inUse := by
  refine ⟨by decide, by decide, by decide, by decide, ?_⟩
  have h := C4_generateImage_priority
    ⟨⟨ipv4 10 0 0 0, 30⟩, [⟨⟨ipv4 10 0 0 0, 30⟩, [ipv4 10 0 0 1]⟩]⟩ 1
    (by decide) (by decide) (by decide)
  obtain ⟨img, himg⟩ := h.2 (by decide)
  refine ⟨img, himg, ?_⟩
  obtain ⟨x, y, hpos, hpix, _⟩ := h.1 _ img himg 1 (by decide)
  have h1 : mapPos ((1 : Nat) : Int) (2 ^ 1) = some (1, 0) := by
    unfold mapPos; simp +decide
    unfold mapPos; simp +decide
  rw [h1] at hpos
  simp only [Option.some.injEq, Prod.mk.injEq] at hpos
  rw [← hpos.1, ← hpos.2] at hpix
  rw [hpix]
  decide

/-! ## Claims on the report -/

/-- C8, the failing input. For the network `10.0.0.0/24` with the single subnet
`10.0.0.0/30` and no in-use address, both blocks being valid, the totals are Total IPs =
256, Allocated = 4, Reserved = 5, Used = 0, and `main` prints Total Available =
18446744073709551615: the `uint64` subtraction `totalAllocated-(totalReserved+totalUsed)`
underflows, where the difference `4 - (5 + 0)` is negative. -/
theorem C8_total_available_underflows :
    (⟨ipv4 10 0 0 0, 24⟩ : Cidr).Valid ∧ (⟨ipv4 10 0 0 0, 30⟩ : Cidr).Valid ∧
    (report ⟨⟨ipv4 10 0 0 0, 24⟩, [⟨⟨ipv4 10 0 0 0, 30⟩, []⟩]⟩).totalIPs = 256 ∧
    (report ⟨⟨ipv4 10 0 0 0, 24⟩, [⟨⟨ipv4 10 0 0 0, 30⟩, []⟩]⟩).totalAllocated = 4 ∧
    (report ⟨⟨ipv4 10 0 0 0, 24⟩, [⟨⟨ipv4 10 0 0 0, 30⟩, []⟩]⟩).totalReserved = 5 ∧
    (report ⟨⟨ipv4 10 0 0 0, 24⟩, [⟨⟨ipv4 10 0 0 0, 30⟩, []⟩]⟩).totalUsed = 0 ∧
    (report ⟨⟨ipv4 10 0 0 0, 24⟩, [⟨⟨ipv4 10 0 0 0, 30⟩, []⟩]⟩).totalAvailable
      = 18446744073709551615 ∧
    ((report ⟨⟨ipv4 10 0 0 0, 24⟩, [⟨⟨ipv4 10 0 0 0, 30⟩, []⟩]⟩).totalAvailable : Int)
      ≠ (4 : Int) - (5 + 0) := by
  decide

/-- Where the subtraction does not underflow the totals of `main` are the sums of the
report: Total IPs is the address count `2^(32-p)` of the block of the network; Total
Allocated is the sum of the address counts of the subnets, Total Reserved is 5 times the
number of subnets and Total Used is the sum of the lengths of the in-use lists, as
`uint64` values; and Total Available is Total Allocated - (Total Reserved + Total Used)
whenever Total Reserved + Total Used is at most Total Allocated. -/
theorem report_totals_without_underflow (vpc : VPC) :
    (report vpc).totalIPs = 2 ^ (32 - vpc.Cidr.prefixLen) ∧
    (report vpc).totalAllocated
      = (vpc.Subnets.map (fun s => 2 ^ (32 - s.Cidr.prefixLen))).sum % 2 ^ 64 ∧
    (report vpc).totalReserved = (5 * vpc.Subnets.length) % 2 ^ 64 ∧
    (report vpc).totalUsed = (vpc.Subnets.map (fun s => s.UsedIps.length)).sum % 2 ^ 64 ∧
    ((report vpc).totalReserved + (report vpc).totalUsed ≤ (report vpc).totalAllocated →
      (report vpc).totalAvailable
        = (report vpc).totalAllocated - ((report vpc).totalReserved + (report vpc).totalUsed)) := by
  rw [report_eq]
  refine ⟨rfl, rfl, rfl, rfl, ?_⟩
  simp only
  intro h
  have hA : (vpc.Subnets.map (fun s => 2 ^ (32 - s.Cidr.prefixLen))).sum % 2 ^ 64 < 2 ^ 64 :=
    Nat.mod_lt _ (by decide)
  rw [wrapU64, Nat.mod_eq_of_lt (lt_of_le_of_lt h hA)]
  exact subU64_eq _ _ hA h

/-- The end-to-end scenario: network `10.0.0.0/24` with the subnet `10.0.0.0/24` and the
in-use addresses `10.0.0.10` and `10.0.0.20` gives Total IPs = 256, Total Allocated = 256,
Total Reserved = 5, Total Used = 2 and Total Available = 249. -/
theorem report_totals_scenario :
    (report ⟨⟨ipv4 10 0 0 0, 24⟩,
      [⟨⟨ipv4 10 0 0 0, 24⟩, [ipv4 10 0 0 10, ipv4 10 0 0 20]⟩]⟩).totalIPs = 256 ∧
    (report ⟨⟨ipv4 10 0 0 0, 24⟩,
      [⟨⟨ipv4 10 0 0 0, 24⟩, [ipv4 10 0 0 10, ipv4 10 0 0 20]⟩]⟩).totalAllocated = 256 ∧
    (report ⟨⟨ipv4 10 0 0 0, 24⟩,
      [⟨⟨ipv4 10 0 0 0, 24⟩, [ipv4 10 0 0 10, ipv4 10 0 0 20]⟩]⟩).totalReserved = 5 ∧
    (report ⟨⟨ipv4 10 0 0 0, 24⟩,
      [⟨⟨ipv4 10 0 0 0, 24⟩, [ipv4 10 0 0 10, ipv4 10 0 0 20]⟩]⟩).totalUsed = 2 ∧
    (report ⟨⟨ipv4 10 0 0 0, 24⟩,
      [⟨⟨ipv4 10 0 0 0, 24⟩, [ipv4 10 0 0 10, ipv4 10 0 0 20]⟩]⟩).totalAvailable = 249 ∧
    (report ⟨⟨ipv4 10 0 0 0, 24⟩,
      [⟨⟨ipv4 10 0 0 0, 24⟩, [ipv4 10 0 0 10, ipv4 10 0 0 20]⟩]⟩).totalAvailable
      = (report ⟨⟨ipv4 10 0 0 0, 24⟩,
          [⟨⟨ipv4 10 0 0 0, 24⟩, [ipv4 10 0 0 10, ipv4 10 0 0 20]⟩]⟩).totalAllocated
        - ((report ⟨⟨ipv4 10 0 0 0, 24⟩,
            [⟨⟨ipv4 10 0 0 0, 24⟩, [ipv4 10 0 0 10, ipv4 10 0 0 20]⟩]⟩).totalReserved
          + (report ⟨⟨ipv4 10 0 0 0, 24⟩,
            [⟨⟨ipv4 10 0 0 0, 24⟩, [ipv4 10 0 0 10, ipv4 10 0 0 20]⟩]⟩).totalUsed) :=
  ⟨by decide, by decide, by decide, by decide, by decide,
    (report_totals_without_underflow ⟨⟨ipv4 10 0 0 0, 24⟩,
      [⟨⟨ipv4 10 0 0 0, 24⟩, [ipv4 10 0 0 10, ipv4 10 0 0 20]⟩]⟩).2.2.2.2 (by decide)⟩

/-- C13. `Subnet.IPInUse(ip)` is true exactly when `ip` equals at least one entry of the
in-use sequence of the subnet: a repeated entry does not change the answer and the address
need not lie in the block of the subnet; and `Subnet.IPAllocated(ip)` is true at every
address. -/
theorem C13_Subnet_IPInUse_IPAllocated :
    (∀ (s : Subnet) (ip : Nat),
      (s.IPInUse ip = true ↔ ∃ used ∈ s.UsedIps, ip = used) ∧ s.IPAllocated ip = true) ∧
    (∀ (c : Cidr) (used : List Nat) (u ip : Nat),
      (⟨c, u :: u :: used⟩ : Subnet).IPInUse ip = (⟨c, u :: used⟩ : Subnet).IPInUse ip) ∧
    (⟨⟨ipv4 10 0 1 0, 24⟩, [ipv4 10 0 2 5]⟩ : Subnet).Cidr.Contains (ipv4 10 0 2 5) = false ∧
    (⟨⟨ipv4 10 0 1 0, 24⟩, [ipv4 10 0 2 5]⟩ : Subnet).IPInUse (ipv4 10 0 2 5) = true ∧
    (⟨⟨ipv4 10 0 1 0, 24⟩, [ipv4 10 0 1 7, ipv4 10 0 1 7]⟩ : Subnet).IPInUse (ipv4 10 0 1 7)
      = true ∧
    (⟨⟨ipv4 10 0 1 0, 24⟩, [ipv4 10 0 1 7, ipv4 10 0 1 7]⟩ : Subnet).IPInUse (ipv4 10 0 1 8)
      = false := by
  refine ⟨?_, ?_, by decide, by decide, by decide, by decide⟩
  · intro s ip
    refine ⟨?_, rfl⟩
    rw [Subnet.IPInUse, usedLoop_iff]
    constructor
    · intro h; exact ⟨ip, h, rfl⟩
    · rintro ⟨u, hu, rfl⟩; exact hu
  · intro c used u ip
    show usedLoop ip (u :: u :: used) = usedLoop ip (u :: used)
    simp only [usedLoop]
    by_cases h : (ip == u) = true
    · simp [h]
    · simp [h]

/-- C18. For a subnet with prefix length at most 29, exactly five distinct addresses
satisfy `Subnet.IPReserved` (the network address `b`, `b+1`, `b+2`, `b+3` and the highest
address `b + 2^(32-p) - 1`), all five lie inside the block of the subnet, and the figure
`Available IPs = AddressCount - 5` of the report is computed without wrap-around and
equals the number of addresses of the block that are not reserved. -/
theorem C18_available_IPs (s : Subnet) (hs : s.Cidr.Valid) (hp : s.Cidr.prefixLen ≤ 29) :
    (∀ ip : Nat, s.IPReserved ip = true ↔
      ip ∈ [s.Cidr.ip, s.Cidr.ip + 1, s.Cidr.ip + 2, s.Cidr.ip + 3,
        s.Cidr.ip + 2 ^ (32 - s.Cidr.prefixLen) - 1]) ∧
    [s.Cidr.ip, s.Cidr.ip + 1, s.Cidr.ip + 2, s.Cidr.ip + 3,
      s.Cidr.ip + 2 ^ (32 - s.Cidr.prefixLen) - 1].Nodup ∧
    (∀ ip ∈ [s.Cidr.ip, s.Cidr.ip + 1, s.Cidr.ip + 2, s.Cidr.ip + 3,
        s.Cidr.ip + 2 ^ (32 - s.Cidr.prefixLen) - 1],
      s.Cidr.Contains ip = true ∧ s.Cidr.ip ≤ ip ∧
        ip < s.Cidr.ip + 2 ^ (32 - s.Cidr.prefixLen)) ∧
    5 ≤ AddressCount s.Cidr ∧
    availableIPs s = AddressCount s.Cidr - 5 ∧
    availableIPs s = ((blockAddresses s.Cidr).filter (fun ip => !s.IPReserved ip)).length := by
  have h8 := block_size_ge_8 s.Cidr hp
  have hcount := AddressCount_eq s.Cidr
  have h32 : 2 ^ (32 - s.Cidr.prefixLen) ≤ 2 ^ 32 :=
    Nat.pow_le_pow_right (by decide) (by omega)
  have hav : availableIPs s = AddressCount s.Cidr - 5 := by
    unfold availableIPs
    rw [hcount]
    exact subU64_eq _ 5 (by omega) (by omega)
  refine ⟨fun ip => IPReserved_iff_mem s ip hs hp, reservedList_nodup s hp, ?_, by omega, hav, ?_⟩
  · intro ip hip
    have hin := reservedList_in_block s hp ip hip
    have hb := s.Cidr.block_le hs
    unfold Cidr.hostBits at hb
    exact ⟨(Contains_iff_interval _ _ hs (by omega)).2 hin, hin⟩
  · rw [hav, hcount]
    have hsplit := List.length_eq_length_filter_add (l := blockAddresses s.Cidr)
      (fun ip => s.IPReserved ip)
    rw [blockAddresses_length, (reserved_in_block_perm s hs hp).length_eq] at hsplit
    have h5 : (reservedList s).length = 5 := rfl
    omega

/-- The subnet `10.0.1.0/24`: five reserved addresses, `256 - 5 = 251` available
addresses. -/
theorem C18_available_IPs_witness :
    (⟨ipv4 10 0 1 0, 24⟩ : Cidr).Valid ∧ 24 ≤ 29 ∧
    availableIPs ⟨⟨ipv4 10 0 1 0, 24⟩, []⟩ = 251 ∧
    availableIPs ⟨⟨ipv4 10 0 1 0, 24⟩, []⟩ =
      ((blockAddresses (⟨ipv4 10 0 1 0, 24⟩ : Cidr)).filter
        (fun ip => !(⟨⟨ipv4 10 0 1 0, 24⟩, []⟩ : Subnet).IPReserved ip)).length :=
  ⟨by decide, by decide, by decide,
    (C18_available_IPs ⟨⟨ipv4 10 0 1 0, 24⟩, []⟩ (by decide) (by decide)).2.2.2.2.2⟩

/-- C19. For a network whose subnets have pairwise disjoint blocks, each contained in the
block of the network, the sum of the address counts of the subnets (Total Allocated) is
at most the address count of the network (Total IPs), so Total Unallocated =
Total IPs - Total Allocated is computed in `uint64` without wrap-around, and it equals
the number of addresses of the block of the network at which `VPC.IPAllocated` is
false. -/
theorem C19_total_unallocated (vpc : VPC) (hv : vpc.Cidr.Valid)
    (hsub : ∀ s ∈ vpc.Subnets, s.Cidr.Valid ∧ vpc.Cidr.ip ≤ s.Cidr.ip ∧
      s.Cidr.ip + 2 ^ (32 - s.Cidr.prefixLen) ≤ vpc.Cidr.ip + 2 ^ (32 - vpc.Cidr.prefixLen))
    (hapart : vpc.Subnets.Pairwise blocksApart) :
    (vpc.Subnets.map (fun s => AddressCount s.Cidr)).sum ≤ AddressCount vpc.Cidr ∧
    (report vpc).totalAllocated = (vpc.Subnets.map (fun s => AddressCount s.Cidr)).sum ∧
    (report vpc).totalIPs = AddressCount vpc.Cidr ∧
    (report vpc).totalAllocated ≤ (report vpc).totalIPs ∧
    (report vpc).totalUnallocated = (report vpc).totalIPs - (report vpc).totalAllocated ∧
    (report vpc).totalUnallocated
      = ((blockAddresses vpc.Cidr).filter (fun ip => !vpc.IPAllocated ip)).length := by
  have hperm := allocated_in_block_perm vpc hv hsub hapart
  have hsplit := List.length_eq_length_filter_add (l := blockAddresses vpc.Cidr)
    (fun ip => vpc.IPAllocated ip)
  rw [blockAddresses_length, hperm.length_eq, List.length_flatMap, sum_map_block_length]
    at hsplit
  have h32 : 2 ^ (32 - vpc.Cidr.prefixLen) ≤ 2 ^ 32 :=
    Nat.pow_le_pow_right (by decide) (by omega)
  have hcounts : (vpc.Subnets.map (fun s => AddressCount s.Cidr))
      = vpc.Subnets.map (fun s => 2 ^ (32 - s.Cidr.prefixLen)) := by
    apply List.map_congr_left
    intro s _
    exact AddressCount_eq s.Cidr
  rw [hcounts, AddressCount_eq, report_eq]
  simp only
  generalize (vpc.Subnets.map (fun s => 2 ^ (32 - s.Cidr.prefixLen))).sum = A at hsplit ⊢
  generalize
    ((blockAddresses vpc.Cidr).filter (fun ip => !vpc.IPAllocated ip)).length = U at hsplit ⊢
  generalize 2 ^ (32 - vpc.Cidr.prefixLen) = N at hsplit h32 ⊢
  have hA : A % 2 ^ 64 = A := Nat.mod_eq_of_lt (by omega)
  rw [hA, subU64_eq N A (by omega) (by omega)]
  exact ⟨by omega, rfl, trivial, by omega, rfl, by omega⟩

/-- The network `10.0.0.0/24` with the subnets `10.0.0.0/26` and `10.0.0.128/25`:
Total Allocated = 192, Total Unallocated = 64, the number of addresses of the block that no
subnet covers. -/
theorem C19_total_unallocated_witness :
    (report ⟨⟨ipv4 10 0 0 0, 24⟩,
      [⟨⟨ipv4 10 0 0 0, 26⟩, []⟩, ⟨⟨ipv4 10 0 0 128, 25⟩, []⟩]⟩).totalAllocated = 192 ∧
    (report ⟨⟨ipv4 10 0 0 0, 24⟩,
      [⟨⟨ipv4 10 0 0 0, 26⟩, []⟩, ⟨⟨ipv4 10 0 0 128, 25⟩, []⟩]⟩).totalUnallocated = 64 ∧
    (report ⟨⟨ipv4 10 0 0 0, 24⟩,
      [⟨⟨ipv4 10 0 0 0, 26⟩, []⟩, ⟨⟨ipv4 10 0 0 128, 25⟩, []⟩]⟩).totalUnallocated
      = ((blockAddresses (⟨ipv4 10 0 0 0, 24⟩ : Cidr)).filter
          (fun ip => !(⟨⟨ipv4 10 0 0 0, 24⟩,
            [⟨⟨ipv4 10 0 0 0, 26⟩, []⟩, ⟨⟨ipv4 10 0 0 128, 25⟩, []⟩]⟩ : VPC).IPAllocated
              ip)).length :=
  ⟨by decide, by decide,
    (C19_total_unallocated
      ⟨⟨ipv4 10 0 0 0, 24⟩, [⟨⟨ipv4 10 0 0 0, 26⟩, []⟩, ⟨⟨ipv4 10 0 0 128, 25⟩, []⟩]⟩
      (by decide) (by decide) (by decide)).2.2.2.2.2⟩

/-! ## Claims on the recursion of `mapPos` -/

/-- C14, as stated, fails: at `dim = 2 ^ 33` the product `subDim * subDim = 2 ^ 64`
overflows the 64-bit `int` to 0, so the remainder `i % subBlockSize` is a division by
zero and `mapPos(5, 2 ^ 33)` does not return. -/
theorem C14_counterexample_division_by_zero :
    wrap64 (Int.tdiv (2 ^ 33) 2 * Int.tdiv (2 ^ 33) 2) = 0 ∧
    mapPosDivisors (2 ^ 33) = [0] ∧
    mapPos 5 (2 ^ 33) = none := by
  have e : wrap64 (Int.tdiv (2 ^ 33) 2 * Int.tdiv (2 ^ 33) 2) = 0 := by decide
  refine ⟨e, ?_, ?_⟩
  · rw [mapPosDivisors]
    simp only [e]
    decide
  · rw [mapPos]
    simp only [e]
    decide

/-- C14 (amended). `mapPos` returns `(0, 0)` whenever `dim ≤ 1`, so `mapPos(0, 1) = (0, 0)`;
while `dim ≥ 2` the second argument `dim / 2` of the nested call is strictly smaller, and
a power of two `2^k` with `k ≤ 32` gives `k` nested remainders; and for every `i` and
every `dim ≥ 2` whose `subDim * subDim` fits the 64-bit `int`, every remainder
`i % subBlockSize` of the call and of its nested calls is taken with `subBlockSize ≥ 1`
and the call returns a result. -/
theorem C14_mapPos_total :
    (∀ i dim : Int, dim ≤ 1 → mapPos i dim = some (0, 0)) ∧
    mapPos 0 1 = some (0, 0) ∧
    (∀ dim : Int, 2 ≤ dim → 0 ≤ Int.tdiv dim 2 ∧ Int.tdiv dim 2 < dim) ∧
    (∀ k : Nat, k ≤ 32 → (mapPosDivisors (2 ^ k)).length = k) ∧
    (∀ i dim : Int, 2 ≤ dim → Int.tdiv dim 2 * Int.tdiv dim 2 < 2 ^ 63 →
      (∀ d ∈ mapPosDivisors dim, 1 ≤ d) ∧ ∃ x y : Int, mapPos i dim = some (x, y)) := by
  refine ⟨mapPos_base, mapPos_base 0 1 (by decide), ?_, mapPosDivisors_two_pow, ?_⟩
  · intro dim h
    rw [tdiv_two dim h]
    omega
  · intro i dim h2 hsq
    rw [tdiv_two dim h2] at hsq
    have hB := half_sq_bound (dim / 2) (by omega) hsq
    have hdim : dim ≤ 6074000999 := by omega
    have hn : dim ≤ (dim.toNat : Int) := by omega
    refine ⟨mapPosDivisors_pos dim.toNat dim hn hdim, ?_⟩
    obtain ⟨x, y, h, _⟩ := mapPos_total dim.toNat dim hn hdim i
    exact ⟨x, y, h⟩

/-- A call with a negative index on a canvas side that is no power of two:
`mapPos(-7, 1000)` returns a result and its remainders are taken with positive
divisors. -/
theorem C14_mapPos_total_witness :
    (2 : Int) ≤ 1000 ∧ Int.tdiv 1000 2 * Int.tdiv 1000 2 < 2 ^ 63 ∧
    ((∀ d ∈ mapPosDivisors 1000, 1 ≤ d) ∧ ∃ x y : Int, mapPos (-7) 1000 = some (x, y)) :=
  ⟨by decide, by decide, C14_mapPos_total.2.2.2.2 (-7) 1000 (by decide) (by decide)⟩

/-- C15, as stated, fails at `dim = 2 ^ 32`: `subBlockSize * 3 = 3 * 2 ^ 62` overflows the
64-bit `int` to a negative number, so index `0`, whose quotient by `subBlockSize` is 0,
takes the branch of quadrant 3 and is moved by `(subDim, subDim)`. -/
theorem C15_counterexample_threshold_overflow :
    (0 : Int) / (2 ^ 32 / 2 * (2 ^ 32 / 2)) = 0 ∧
    wrap64 (2 ^ 32 / 2 * (2 ^ 32 / 2) * 3) = -2 ^ 62 ∧
    mapPos (0 % (2 ^ 32 / 2 * (2 ^ 32 / 2))) (2 ^ 32 / 2) = some (0, 0) ∧
    mapPos 0 (2 ^ 32) = some (0 + 2 ^ 32 / 2, 0 + 2 ^ 32 / 2) ∧
    mapPos 0 (2 ^ 32) ≠ some (0, 0) := by
  have h0 : mapPos 0 (2 ^ 31) = some (0, 0) := by
    have h := mapPos_eq_zOrder 31 (by decide) 0 (by decide)
    have hz : zOrder 31 0 = (0, 0) := by decide
    rw [hz] at h
    exact_mod_cast h
  have e1 : Int.tdiv (2 ^ 32) 2 = 2 ^ 31 := by decide
  have e2 : wrap64 (2 ^ 31 * 2 ^ 31) = 2 ^ 62 := by decide
  have e3 : Int.tmod 0 (2 ^ 62) = 0 := by decide
  have e5 : wrap64 (2 ^ 62 * 3) = - 2 ^ 62 := by decide
  have e6 : wrap64 (0 + 2 ^ 31) = 2 ^ 31 := by decide
  have hm : mapPos 0 (2 ^ 32) = some (2 ^ 31, 2 ^ 31) := by
    rw [mapPos]
    simp only [e1, e2, e3, e5, h0, e6]
    decide
  have a1 : (0 : Int) % (2 ^ 32 / 2 * (2 ^ 32 / 2)) = 0 := by decide
  have a2 : (2 : Int) ^ 32 / 2 = 2 ^ 31 := by decide
  refine ⟨by decide, by decide, ?_, ?_, ?_⟩
  · rw [a1, a2]; exact h0
  · rw [hm, a2]; decide
  · rw [hm]; decide

/-- C15 (amended). Recursive step: for every `dim ≥ 2` for which `subBlockSize * 3` fits
the 64-bit `int`, with `subDim = dim / 2` and `subBlockSize = subDim * subDim`, and every
`i` with `0 ≤ i < 4 * subBlockSize`: the nested call `mapPos(i mod subBlockSize, subDim)`
returns some `(x, y)`, the quotient `q = i div subBlockSize` is one of 0, 1, 2, 3, and
`mapPos(i, dim)` is `(x, y)` for `q = 0`, `(x + subDim, y)` for `q = 1`,
`(x, y + subDim)` for `q = 2` and `(x + subDim, y + subDim)` for `q = 3`. -/
theorem C15_mapPos_recursive_step (i dim : Int) (hdim : 2 ≤ dim)
    (hfit : dim / 2 * (dim / 2) * 3 < 2 ^ 63)
    (hi0 : 0 ≤ i) (hi : i < 4 * (dim / 2 * (dim / 2))) :
    ∃ x y : Int, mapPos (i % (dim / 2 * (dim / 2))) (dim / 2) = some (x, y) ∧
      0 ≤ i / (dim / 2 * (dim / 2)) ∧ i / (dim / 2 * (dim / 2)) ≤ 3 ∧
      mapPos i dim = some
        (if i / (dim / 2 * (dim / 2)) = 0 then (x, y)
         else if i / (dim / 2 * (dim / 2)) = 1 then (x + dim / 2, y)
         else if i / (dim / 2 * (dim / 2)) = 2 then (x, y + dim / 2)
         else (x + dim / 2, y + dim / 2)) := by
  have e1 := tdiv_two dim hdim
  have hd1 : 1 ≤ dim / 2 := by omega
  have hsq1 : 1 ≤ dim / 2 * (dim / 2) := by nlinarith
  have hB : dim / 2 ≤ 3037000499 := half_sq_bound (dim / 2) hd1 (by omega)
  have hn : dim / 2 ≤ ((dim / 2).toNat : Int) := by omega
  obtain ⟨x, y, hrec, hx0, hx, hy0, hy⟩ :=
    mapPos_total (dim / 2).toNat (dim / 2) hn (by omega) (i % (dim / 2 * (dim / 2)))
  rw [max_eq_right hd1] at hx hy
  have e2 : wrap64 (dim / 2 * (dim / 2)) = dim / 2 * (dim / 2) :=
    wrap64_eq _ (by omega) (by omega)
  have e3 : wrap64 (dim / 2 * (dim / 2) * 3) = dim / 2 * (dim / 2) * 3 :=
    wrap64_eq _ (by omega) (by omega)
  have e4 : wrap64 (dim / 2 * (dim / 2) * 2) = dim / 2 * (dim / 2) * 2 :=
    wrap64_eq _ (by omega) (by omega)
  have e5 : Int.tmod i (dim / 2 * (dim / 2)) = i % (dim / 2 * (dim / 2)) :=
    Int.tmod_eq_emod hi0 (by omega)
  have e6 : wrap64 (x + dim / 2) = x + dim / 2 := wrap64_eq _ (by omega) (by omega)
  have e7 : wrap64 (y + dim / 2) = y + dim / 2 := wrap64_eq _ (by omega) (by omega)
  have n1 : ¬ (dim ≤ 1) := by omega
  have n2 : ¬ (dim / 2 * (dim / 2) = 0) := by omega
  have hstep : mapPos i dim =
      if dim / 2 * (dim / 2) * 3 ≤ i then some (x + dim / 2, y + dim / 2)
      else if dim / 2 * (dim / 2) * 2 ≤ i then some (x, y + dim / 2)
      else if dim / 2 * (dim / 2) ≤ i then some (x + dim / 2, y)
      else some (x, y) := by
    rw [mapPos]
    simp only [e1, e2, e3, e4, e5, hrec, n1, n2, dite_false, ite_false, e6, e7, ge_iff_le]
  have hdm := Int.ediv_add_emod i (dim / 2 * (dim / 2))
  have hm0 := Int.emod_nonneg i (show dim / 2 * (dim / 2) ≠ 0 by omega)
  have hml := Int.emod_lt_of_pos i (show 0 < dim / 2 * (dim / 2) by omega)
  refine ⟨x, y, hrec, ?_, ?_, ?_⟩
  · exact Int.ediv_nonneg hi0 (by omega)
  · have := Int.ediv_lt_of_lt_mul (show 0 < dim / 2 * (dim / 2) by omega) hi
    omega
  · rw [hstep]
    have hq0 : 0 ≤ i / (dim / 2 * (dim / 2)) := Int.ediv_nonneg hi0 (by omega)
    have hq3 : i / (dim / 2 * (dim / 2)) < 4 :=
      Int.ediv_lt_of_lt_mul (show 0 < dim / 2 * (dim / 2) by omega) hi
    generalize i / (dim / 2 * (dim / 2)) = q at hdm hq0 hq3 ⊢
    generalize i % (dim / 2 * (dim / 2)) = r at hdm hm0 hml
    generalize dim / 2 * (dim / 2) = S at *
    have hq : q = 0 ∨ q = 1 ∨ q = 2 ∨ q = 3 := by omega
    rcases hq with rfl | rfl | rfl | rfl
    · have c1 : ¬ (S * 3 ≤ i) := by omega
      have c2 : ¬ (S * 2 ≤ i) := by omega
      have c3 : ¬ (S ≤ i) := by omega
      simp [c1, c2, c3]
    · have c1 : ¬ (S * 3 ≤ i) := by omega
      have c2 : ¬ (S * 2 ≤ i) := by omega
      have c3 : S ≤ i := by omega
      simp [c1, c2, c3]
    · have c1 : ¬ (S * 3 ≤ i) := by omega
      have c2 : S * 2 ≤ i := by omega
      simp [c1, c2]
    · have c1 : S * 3 ≤ i := by omega
      simp [c1]

/-- The step on a canvas of side 6, which is no power of two: `subDim = 3`,
`subBlockSize = 9`, index `20` has quotient 2. -/
theorem C15_mapPos_recursive_step_witness :
    (2 : Int) ≤ 6 ∧ (6 : Int) / 2 * (6 / 2) * 3 < 2 ^ 63 ∧ (0 : Int) ≤ 20 ∧
    (20 : Int) < 4 * (6 / 2 * (6 / 2)) ∧
    ∃ x y : Int, mapPos (20 % (6 / 2 * (6 / 2))) (6 / 2) = some (x, y) ∧
      0 ≤ (20 : Int) / (6 / 2 * (6 / 2)) ∧ (20 : Int) / (6 / 2 * (6 / 2)) ≤ 3 ∧
      mapPos 20 6 = some
        (if (20 : Int) / (6 / 2 * (6 / 2)) = 0 then (x, y)
         else if (20 : Int) / (6 / 2 * (6 / 2)) = 1 then (x + 6 / 2, y)
         else if (20 : Int) / (6 / 2 * (6 / 2)) = 2 then (x, y + 6 / 2)
         else (x + 6 / 2, y + 6 / 2)) :=
  ⟨by decide, by decide, by decide, by decide,
    C15_mapPos_recursive_step 20 6 (by decide) (by decide) (by decide) (by decide)⟩

/-- C16, as stated, fails at `k = 32`: on the canvas of side `2 ^ 32` index `1` is placed
at `(2 ^ 31 + 1, 2 ^ 31)`, while its even-position bits form `1` and its odd-position
bits form `0`. -/
theorem C16_counterexample_side_two_pow_32 :
    (1 : Nat) < 4 ^ 32 ∧ mortonX 32 1 = 1 ∧ mortonY 32 1 = 0 ∧
    mapPos 1 (2 ^ 32) = some (2 ^ 31 + 1, 2 ^ 31) ∧
    mapPos ((1 : Nat) : Int) (2 ^ 32)
      ≠ some (((mortonX 32 1 : Nat) : Int), ((mortonY 32 1 : Nat) : Int)) := by
  have h0 : mapPos 1 (2 ^ 31) = some (1, 0) := by
    have h := mapPos_eq_zOrder 31 (by decide) 1 (by decide)
    have hz : zOrder 31 1 = (1, 0) := by decide
    rw [hz] at h
    exact_mod_cast h
  have e1 : Int.tdiv (2 ^ 32) 2 = 2 ^ 31 := by decide
  have e2 : wrap64 (2 ^ 31 * 2 ^ 31) = 2 ^ 62 := by decide
  have e3 : Int.tmod 1 (2 ^ 62) = 1 := by decide
  have e5 : wrap64 (2 ^ 62 * 3) = - 2 ^ 62 := by decide
  have e6 : wrap64 (1 + 2 ^ 31) = 2 ^ 31 + 1 := by decide
  have e7 : wrap64 (0 + 2 ^ 31) = 2 ^ 31 := by decide
  have hm : mapPos 1 (2 ^ 32) = some (2 ^ 31 + 1, 2 ^ 31) := by
    rw [mapPos]
    simp only [e1, e2, e3, e5, h0, e6, e7]
    decide
  have mx : mortonX 32 1 = 1 := by decide
  have my : mortonY 32 1 = 0 := by decide
  refine ⟨by decide, mx, my, hm, ?_⟩
  rw [mx, my]
  simp only [Nat.cast_one, Nat.cast_zero]
  rw [hm]
  decide

/-- C16 (amended). `mapPos` is the Morton (Z-order) de-interleaving on every canvas it can
compute without overflow: for every `k ≤ 31` and every `i < 4^k`,
`mapPos(i, 2^k) = (x, y)` where `x` is the sum over `j < k` of `bit(i, 2j) * 2^j` and `y`
is the sum over `j < k` of `bit(i, 2j+1) * 2^j`. -/
theorem C16_mapPos_is_morton (k : Nat) (hk : k ≤ 31) (i : Nat) (hi : i < 4 ^ k) :
    mapPos (i : Int) (2 ^ k) = some (((mortonX k i : Nat) : Int), ((mortonY k i : Nat) : Int)) := by
  rw [mapPos_eq_zOrder k hk i hi, zOrder_eq_morton k i hi]

/-- Index `27 = 0b011011` on the canvas of side 8: the even-position bits `1, 0, 1` give
`x = 5`, the odd-position bits `1, 1, 0` give `y = 3`. -/
theorem C16_mapPos_is_morton_witness :
    3 ≤ 31 ∧ 27 < 4 ^ 3 ∧ mortonX 3 27 = 5 ∧ mortonY 3 27 = 3 ∧
    mapPos ((27 : Nat) : Int) (2 ^ 3)
      = some (((mortonX 3 27 : Nat) : Int), ((mortonY 3 27 : Nat) : Int)) :=
  ⟨by decide, by decide, by decide, by decide, C16_mapPos_is_morton 3 (by decide) 27 (by decide)⟩

/-- C17, as stated, fails at `n = 32`: with `k = 32` and `j = 0` the corner
`mapPos(0 * 4^32, 2^32) = (2^31, 2^31)` has coordinates that `2^32` does not divide; and at
`n = 33` the call `mapPos(0, 2^33)` divides by zero and gives no corner at all. -/
theorem C17_counterexample_corner :
    mapPos (((0 * 4 ^ 32 : Nat) : Int)) (2 ^ 32) = some (2 ^ 31, 2 ^ 31) ∧
    ¬ ((2 : Int) ^ 32 ∣ 2 ^ 31) ∧
    mapPos (((0 * 4 ^ 0 : Nat) : Int)) (2 ^ 33) = none := by
  have h0 : mapPos 0 (2 ^ 31) = some (0, 0) := by
    have h := mapPos_eq_zOrder 31 (by decide) 0 (by decide)
    rw [zOrder_zero] at h
    exact_mod_cast h
  have e1 : Int.tdiv (2 ^ 32) 2 = 2 ^ 31 := by decide
  have e2 : wrap64 (2 ^ 31 * 2 ^ 31) = 2 ^ 62 := by decide
  have e3 : Int.tmod 0 (2 ^ 62) = 0 := by decide
  have e5 : wrap64 (2 ^ 62 * 3) = - 2 ^ 62 := by decide
  have e6 : wrap64 (0 + 2 ^ 31) = 2 ^ 31 := by decide
  have e8 : wrap64 (Int.tdiv (2 ^ 33) 2 * Int.tdiv (2 ^ 33) 2) = 0 := by decide
  have c0 : (((0 * 4 ^ 32 : Nat) : Int)) = 0 := by decide
  have c1 : (((0 * 4 ^ 0 : Nat) : Int)) = 0 := by decide
  refine ⟨?_, by decide, ?_⟩
  · rw [c0, mapPos]
    simp only [e1, e2, e3, e5, h0, e6]
    decide
  · rw [c1, mapPos]
    simp only [e8]
    decide

/-- C17 (amended). Locality of the layout on every canvas `mapPos` can compute without
overflow: for every `n ≤ 31`, every `k ≤ n` and every `j < 4^(n-k)`, the `4^k`
consecutive indices `j*4^k, ..., (j+1)*4^k - 1` are mapped by `mapPos(., 2^n)` exactly
onto the axis-aligned square of side `2^k` whose corner `(x0, y0) = mapPos(j*4^k, 2^n)`
has both coordinates divisible by `2^k`. -/
theorem C17_aligned_block_is_square (n k : Nat) (hn : n ≤ 31) (hk : k ≤ n) (j : Nat)
    (hj : j < 4 ^ (n - k)) :
    ∃ x0 y0 : Int, mapPos ((j * 4 ^ k : Nat) : Int) (2 ^ n) = some (x0, y0) ∧
      (2 : Int) ^ k ∣ x0 ∧ (2 : Int) ^ k ∣ y0 ∧
      (∀ i : Nat, j * 4 ^ k ≤ i → i < (j + 1) * 4 ^ k →
        ∃ x y : Int, mapPos (i : Int) (2 ^ n) = some (x, y) ∧
          x0 ≤ x ∧ x < x0 + 2 ^ k ∧ y0 ≤ y ∧ y < y0 + 2 ^ k) ∧
      (∀ x y : Int, x0 ≤ x → x < x0 + 2 ^ k → y0 ≤ y → y < y0 + 2 ^ k →
        ∃ i : Nat, j * 4 ^ k ≤ i ∧ i < (j + 1) * 4 ^ k ∧
          mapPos (i : Int) (2 ^ n) = some (x, y)) := by
  obtain ⟨m, rfl⟩ : ∃ m, n = k + m := ⟨n - k, by omega⟩
  have hm : k + m - k = m := by omega
  rw [hm] at hj
  have hposk : 0 < 4 ^ k := Nat.pos_pow_of_pos _ (by decide)
  have h2 : ((2 : Int) ^ k) = ((2 ^ k : Nat) : Int) := by push_cast; rfl
  have hblock : ∀ r : Nat, r < 4 ^ k →
      mapPos ((j * 4 ^ k + r : Nat) : Int) (2 ^ (k + m))
        = some (((2 ^ k * (zOrder m j).1 + (zOrder k r).1 : Nat) : Int),
                ((2 ^ k * (zOrder m j).2 + (zOrder k r).2 : Nat) : Int)) := by
    intro r hr
    rw [mapPos_eq_zOrder (k + m) hn _ (mul_four_pow_add_lt k m j r hj hr),
      zOrder_block k m j r hj hr]
  refine ⟨((2 ^ k * (zOrder m j).1 : Nat) : Int), ((2 ^ k * (zOrder m j).2 : Nat) : Int),
    ?_, ?_, ?_, ?_, ?_⟩
  · have := hblock 0 hposk
    rw [zOrder_zero] at this
    simpa using this
  · rw [h2]; exact_mod_cast Dvd.intro _ rfl
  · rw [h2]; exact_mod_cast Dvd.intro _ rfl
  · intro i hlo hhi
    obtain ⟨r, rfl⟩ : ∃ r, i = j * 4 ^ k + r := ⟨i - j * 4 ^ k, by omega⟩
    have hr : r < 4 ^ k := by
      have : (j + 1) * 4 ^ k = j * 4 ^ k + 4 ^ k := by ring
      omega
    obtain ⟨b1, b2⟩ := zOrder_lt k r hr
    refine ⟨_, _, hblock r hr, ?_, ?_, ?_, ?_⟩
    · push_cast; omega
    · rw [h2]; push_cast; omega
    · push_cast; omega
    · rw [h2]; push_cast; omega
  · intro x y hx0 hx hy0 hy
    rw [h2] at hx hy
    obtain ⟨a, ha⟩ : ∃ a : Nat, x = ((2 ^ k * (zOrder m j).1 : Nat) : Int) + a :=
      ⟨(x - ((2 ^ k * (zOrder m j).1 : Nat) : Int)).toNat, by omega⟩
    obtain ⟨b, hb⟩ : ∃ b : Nat, y = ((2 ^ k * (zOrder m j).2 : Nat) : Int) + b :=
      ⟨(y - ((2 ^ k * (zOrder m j).2 : Nat) : Int)).toNat, by omega⟩
    have ha' : a < 2 ^ k := by omega
    have hb' : b < 2 ^ k := by omega
    have hr := zIndex_lt k a b ha' hb'
    refine ⟨j * 4 ^ k + zIndex k a b, by omega, ?_, ?_⟩
    · have : (j + 1) * 4 ^ k = j * 4 ^ k + 4 ^ k := by ring
      omega
    · rw [hblock _ hr, zOrder_zIndex k a b ha' hb', ha, hb]
      push_cast
      rfl

/-- The block of the 16 indices `32, ..., 47` on the canvas of side 8: its corner is
`mapPos(32, 8) = (0, 4)` and it fills the square `[0, 4) × [4, 8)`. -/
theorem C17_aligned_block_is_square_witness :
    3 ≤ 31 ∧ 2 ≤ 3 ∧ 2 < 4 ^ (3 - 2) ∧ mapPos 32 8 = some (0, 4) ∧
    ∃ x0 y0 : Int, mapPos ((2 * 4 ^ 2 : Nat) : Int) (2 ^ 3) = some (x0, y0) ∧
      (2 : Int) ^ 2 ∣ x0 ∧ (2 : Int) ^ 2 ∣ y0 ∧
      (∀ i : Nat, 2 * 4 ^ 2 ≤ i → i < (2 + 1) * 4 ^ 2 →
        ∃ x y : Int, mapPos (i : Int) (2 ^ 3) = some (x, y) ∧
          x0 ≤ x ∧ x < x0 + 2 ^ 2 ∧ y0 ≤ y ∧ y < y0 + 2 ^ 2) ∧
      (∀ x y : Int, x0 ≤ x → x < x0 + 2 ^ 2 → y0 ≤ y → y < y0 + 2 ^ 2 →
        ∃ i : Nat, 2 * 4 ^ 2 ≤ i ∧ i < (2 + 1) * 4 ^ 2 ∧
          mapPos (i : Int) (2 ^ 3) = some (x, y)) := by
  refine ⟨by decide, by decide, by decide, ?_,
    C17_aligned_block_is_square 3 2 (by decide) (by decide) 2 (by decide)⟩
  have h := mapPos_eq_zOrder 3 (by decide) 32 (by decide)
  have hz : zOrder 3 32 = (0, 4) := by decide
  rw [hz] at h
  exact_mod_cast h

/-! ## Claims on the canvas -/

/-- C12, as stated, fails on its own example: the network `10.0.0.0/23` without subnets has
512 addresses on the canvas of side 32; the pixel `(0, 16) = mapPos(512, 32)` belongs to
no address and keeps the zero value `RGBA(0, 0, 0, 0)` of `image.NewRGBA`, which is not the
unallocated colour `RGBA(0, 0, 0, 255)` nor any other of the four colours. -/
theorem C12_counterexample_trailing_pixel :
    ∃ img : Image,
      generateImage (2 ^ (32 - 23) + 1) (2 ^ 5) ⟨⟨ipv4 10 0 0 0, 23⟩, []⟩
        = Outcome.finished img ∧
      mapPos 512 (2 ^ 5) = some (0, 16) ∧
      img.pix 0 16 = ⟨0, 0, 0, 0⟩ ∧
      img.pix 0 16 ≠ unallocated ∧ img.pix 0 16 ≠ allocated ∧ img.pix 0 16 ≠ reserved ∧
      img.pix 0 16 ≠ inUse := by
  obtain ⟨img, hrun, _, hpix⟩ :=
    drawIP_calls_untouched ⟨⟨ipv4 10 0 0 0, 23⟩, []⟩ 5 (by decide) 512 (by decide)
  have hgen := generateImage_run ⟨⟨ipv4 10 0 0 0, 23⟩, []⟩ 5 (by decide) (by decide)
    (2 ^ (32 - 23) + 1) (by decide)
  have e : 2 ^ (⟨ipv4 10 0 0 0, 23⟩ : Cidr).hostBits = 512 := by decide
  simp only [e] at hgen
  rw [hrun] at hgen
  have hzero : img.pix 0 16 = ⟨0, 0, 0, 0⟩ := by
    apply hpix
    intro j hj hcon
    have hz := zIndex_zOrder 5 j (by omega)
    have h1 : (zOrder 5 j).1 = 0 := by exact_mod_cast hcon.1.symm
    have h2 : (zOrder 5 j).2 = 16 := by exact_mod_cast hcon.2.symm
    rw [h1, h2] at hz
    have : zIndex 5 0 16 = 512 := by decide
    omega
  have hpos : mapPos 512 (2 ^ 5) = some (0, 16) := by
    have h := mapPos_eq_zOrder 5 (by decide) 512 (by decide)
    have hz : zOrder 5 512 = (0, 16) := by decide
    rw [hz] at h
    exact_mod_cast h
  refine ⟨img, hgen, hpos, hzero, ?_, ?_, ?_, ?_⟩ <;> rw [hzero] <;> decide

/-- C12 (amended). For a network rendered by `generateImage` on a canvas of side
`dim = 2^k` that has room for its block, every pixel `mapPos(i, dim)` of an address of the
block holds one of the four category colours, and every pixel `mapPos(i, dim)` of an
index `i` from the address count up to `dim * dim - 1`, which corresponds to no address,
keeps the zero value `RGBA(0, 0, 0, 0)` of `image.NewRGBA`; this value is none of the
four category colours.  The rendering finishes whenever the prefix length of the block is
at least 1. -/
theorem C12_generateImage_canvas (info : VPC) (k : Nat) (hv : info.Cidr.Valid)
    (hk : k ≤ 31) (hfit : 2 ^ (32 - info.Cidr.prefixLen) ≤ 2 ^ k * 2 ^ k) :
    (∀ (fuel : Nat) (img : Image), generateImage fuel (2 ^ k) info = Outcome.finished img →
      (∀ i : Nat, i < 2 ^ (32 - info.Cidr.prefixLen) →
        ∃ x y : Int, mapPos (i : Int) (2 ^ k) = some (x, y) ∧
          (img.pix x y = unallocated ∨ img.pix x y = allocated ∨ img.pix x y = reserved ∨
            img.pix x y = inUse)) ∧
      (∀ i : Nat, 2 ^ (32 - info.Cidr.prefixLen) ≤ i → i < 2 ^ k * 2 ^ k →
        ∃ x y : Int, mapPos (i : Int) (2 ^ k) = some (x, y) ∧
          img.pix x y = ⟨0, 0, 0, 0⟩)) ∧
    ((⟨0, 0, 0, 0⟩ : RGBA) ≠ unallocated ∧ (⟨0, 0, 0, 0⟩ : RGBA) ≠ allocated ∧
      (⟨0, 0, 0, 0⟩ : RGBA) ≠ reserved ∧ (⟨0, 0, 0, 0⟩ : RGBA) ≠ inUse) ∧
    (1 ≤ info.Cidr.prefixLen →
      ∃ img : Image,
        generateImage (2 ^ (32 - info.Cidr.prefixLen) + 1) (2 ^ k) info
          = Outcome.finished img) := by
  have hfit4 : 2 ^ info.Cidr.hostBits ≤ 4 ^ k := by
    rw [four_pow_eq]; exact hfit
  obtain ⟨final, hfinal, _, hpix⟩ := drawIP_calls info k hk (2 ^ info.Cidr.hostBits) hfit4
  obtain ⟨final2, hfinal2, _, hzero⟩ :=
    drawIP_calls_untouched info k hk (2 ^ info.Cidr.hostBits) hfit4
  have hsame : final2 = final := by
    rw [hfinal] at hfinal2
    exact (Option.some.inj hfinal2).symm
  subst hsame
  refine ⟨?_, by decide, ?_⟩
  · intro fuel img hfin
    by_cases hp : 1 ≤ info.Cidr.prefixLen
    · have hbig := forEachIPLoop_mono info.Cidr (drawIP info (2 ^ k)) fuel info.Cidr.ip 0
        (NewRGBA (2 ^ k)) img (2 ^ info.Cidr.hostBits + 1) (by rw [← generateImage_eq]; exact hfin)
      rw [← generateImage_eq, generateImage_run info k hv hp _ (by omega), hfinal] at hbig
      have himg : final2 = img := by
        simpa [Outcome.ofOption] using hbig
      subst himg
      constructor
      · intro i hi
        have hi' : i < 2 ^ info.Cidr.hostBits := hi
        refine ⟨_, _, mapPos_eq_zOrder k hk i (by omega), ?_⟩
        rw [hpix i hi']
        exact colourOf_cases info _
      · intro i hlo hhi
        have hi4 : i < 4 ^ k := by rw [four_pow_eq]; exact hhi
        refine ⟨_, _, mapPos_eq_zOrder k hk i hi4, ?_⟩
        apply hzero
        intro j hj hcon
        have hj' : j < 2 ^ (32 - info.Cidr.prefixLen) := hj
        have : i = j := by
          apply zOrder_injective k i j hi4 (by omega)
          apply Prod.ext
          · exact_mod_cast hcon.1
          · exact_mod_cast hcon.2
        omega
    · exfalso
      have hp0 : info.Cidr.prefixLen = 0 := by omega
      have hc : info.Cidr = ⟨info.Cidr.ip, 0⟩ := by
        cases hci : info.Cidr with
        | mk a p => rw [hci] at hp0; simp at hp0; rw [hp0]
      rw [generateImage_eq, hc] at hfin
      exact forEachIPLoop_slash_zero _ _ _ _ _ _ _ hfin
  · intro hp
    refine ⟨final2, ?_⟩
    have h := generateImage_run info k hv hp (2 ^ info.Cidr.hostBits + 1) (by omega)
    rw [hfinal] at h
    exact h

/-- The network `10.0.0.0/31` without subnets on the canvas of side 2: the rendering
finishes, the pixels `(0, 0)` and `(1, 0)` of its two addresses hold the unallocated
colour and the pixel `(0, 1)` of index 2 keeps the zero value. -/
theorem C12_generateImage_canvas_witness :
    (⟨ipv4 10 0 0 0, 31⟩ : Cidr).Valid ∧ 1 ≤ 31 ∧ 2 ^ (32 - 31) ≤ 2 ^ 1 * 2 ^ 1 ∧
    ∃ img : Image,
      generateImage (2 ^ (32 - 31) + 1) (2 ^ 1) ⟨⟨ipv4 10 0 0 0, 31⟩, []⟩
        = Outcome.finished img ∧
      img.pix 0 1 = ⟨0, 0, 0, 0⟩ := by
  refine ⟨by decide, by decide, by decide, ?_⟩
  have h := C12_generateImage_canvas ⟨⟨ipv4 10 0 0 0, 31⟩, []⟩ 1
    (by decide) (by decide) (by decide)
  obtain ⟨img, himg⟩ := h.2.2 (by decide)
  refine ⟨img, himg, ?_⟩
  obtain ⟨x, y, hpos, hpix⟩ := (h.1 _ img himg).2 2 (by decide) (by decide)
  have h1 : mapPos ((2 : Nat) : Int) (2 ^ 1) = some (0, 1) := by
    unfold mapPos; simp +decide
    unfold mapPos; simp +decide
  rw [h1] at hpos
  simp only [Option.some.injEq, Prod.mk.injEq] at hpos
  rw [← hpos.1, ← hpos.2] at hpix
  exact hpix

end VpcMapper
